import Mathlib

/-!
Verification development for the plugin registration and lifecycle coordinator
of the lowcode-engine repository (`LowCodePluginManager` in
`src/packages/designer/src/plugin/plugin-manager.ts`).

The manager's mutable state (`plugins` array, `pluginsMap` JS `Map`,
`pluginPreference`) is embedded as an immutable record threaded through the
operations.  JS `Map` objects are embedded as association lists with the exact
JS semantics: `set` updates the first matching key in place or appends,
`get`/`delete` act on the first matching key, insertion order is preserved.
JS object identity (the `plugins` array and `pluginsMap` alias the same plugin
objects) is embedded by tagging every created plugin with a fresh `objId` and
performing every in-place object mutation simultaneously on all aliases via
`updatePlugin`.

Asynchronous methods that can reject are embedded as functions returning an
explicit success flag together with the mutated state (a rejecting call in the
source still leaves behind all mutations performed before the throw), plus a
trace of observable events (lifecycle hook invocations and error logging).

Code of this repository that is not among the given sources (`plugin.ts`,
`plugin-context.ts`, `sequencify.ts`, the `invariant` util) is modelled from
the specification; each such definition carries a doc comment starting with
`Modelled from the spec:`.
-/

namespace Lowcode

/-! ## JS `Map` as an association list -/

/-- JS `Map.prototype.get`: the value of the first entry with the given key. -/
def mapGet {α : Type} : List (String × α) → String → Option α
  | [], _ => none
  | (k, v) :: rest, key => if k = key then some v else mapGet rest key

/-- JS `Map.prototype.set`: replace the value of an existing key in place
(keeping its position), otherwise append a new entry. -/
def mapSet {α : Type} : List (String × α) → String → α → List (String × α)
  | [], key, v => [(key, v)]
  | (k, w) :: rest, key, v =>
      if k = key then (key, v) :: rest else (k, w) :: mapSet rest key v

/-- JS `Map.prototype.delete`: remove the first entry with the given key. -/
def mapDelete {α : Type} : List (String × α) → String → List (String × α)
  | [], _ => []
  | (k, v) :: rest, key => if k = key then rest else (k, v) :: mapDelete rest key

/-- JS `Map.prototype.has`. -/
def mapHas {α : Type} (l : List (String × α)) (key : String) : Bool :=
  (mapGet l key).isSome

/-- JS `Map.prototype.size` (the maps built by the manager have unique keys,
so the entry count is the size). -/
def mapSize {α : Type} (l : List (String × α)) : Nat := l.length

/-! ## Data model -/

/-- `PreferenceValueType = string | number | boolean` (from `plugin-types.ts`,
not among the given sources; the shape is irrelevant to every claim, numbers
are embedded as integers). -/
inductive PreferenceValueType : Type
  | str (s : String)
  | num (n : Int)
  | boolean (b : Bool)
deriving DecidableEq

/-- `Record<string, PreferenceValueType>`. -/
abbrev PrefRecord : Type := List (String × PreferenceValueType)

/-- `PluginPreference = Map<string, Record<string, PreferenceValueType>>`. -/
abbrev PluginPreference : Type := List (String × PrefRecord)

/-- Outcome of an invocation of a lifecycle hook wrapped in a plugin's config:
the hook may be absent, resolve normally, or throw/reject.  This is the
deterministic abstraction of the hook function; its external side effects are
captured as trace events. -/
inductive HookBehavior : Type
  | absent
  | ok
  | throws
deriving DecidableEq

/-- The config object produced by a plugin's factory (`ILowCodePluginConfig`):
an optional legacy `name` field and optional `init`/`destroy` lifecycle hooks.
Arbitrary exported capability methods are opaque to the registry logic and are
represented by the unit's capability proxy tag only. -/
structure ILowCodePluginConfig : Type where
  name : Option String := none
  initBehavior : HookBehavior := .absent
  destroyBehavior : HookBehavior := .absent
deriving DecidableEq

/-- `meta.engines` declaration; `lowcodeEngine` is the required engine
semver range. -/
structure EnginesDecl : Type where
  lowcodeEngine : Option String := none
deriving DecidableEq

/-- Declarative plugin metadata (`ILowCodePluginConfigMeta`).  The
`preferenceDeclaration` field is consulted only by the context factory and
option filtering, which perform no registry logic (spec §4.3), so it is
elided.  `dependencies` is the declared dependency list consumed by the
Sequencer (spec §3, §9: dependency declaration as explicit input). -/
structure PluginMeta : Type where
  engines : Option EnginesDecl := none
  dependencies : List String := []
deriving DecidableEq

/-- Observable events: lifecycle hook invocations and error logging. -/
inductive PEvent : Type
  | initHook (name : String)
  | destroyHook (name : String)
  | logError (name : String)
deriving DecidableEq

/-- One registered plugin unit (`LowCodePlugin` from `plugin.ts`, not among
the given sources; fields follow the spec's data model §3: `name`, `config`,
`meta`, `disabled`, `initialized`, plus the terminal `destroyed` state of
§4.4's state machine).  `objId` is the JS object identity tag. -/
structure LowCodePlugin : Type where
  name : String
  config : ILowCodePluginConfig
  meta : PluginMeta
  disabled : Bool := false
  inited : Bool := false
  destroyed : Bool := false
  objId : Nat
deriving DecidableEq

/-- The dependency list of a unit, consumed by the Sequencer. -/
def LowCodePlugin.deps (p : LowCodePlugin) : List String := p.meta.dependencies

/-- Result of invoking an async lifecycle method on a unit: whether it
resolved, the state of the (in JS, mutated-in-place) unit, and the observable
events. -/
structure HookCall : Type where
  ok : Bool
  plugin : LowCodePlugin
  events : List PEvent
deriving DecidableEq

/-- Modelled from the spec: `LowCodePlugin.init` (`plugin.ts` is not among the
given sources).  §4.2: invokes the wrapped config's `init` hook at most once;
duplicate calls after the first successful completion are no-ops; a hook
failure propagates to the caller.  §3: `initialized` is set true exactly once
after `init` resolves (so not when the hook throws). -/
def LowCodePlugin.init (p : LowCodePlugin) : HookCall :=
  if p.inited then ⟨true, p, []⟩
  else
    match p.config.initBehavior with
    | .absent => ⟨true, { p with inited := true }, []⟩
    | .ok => ⟨true, { p with inited := true }, [.initHook p.name]⟩
    | .throws => ⟨false, p, [.initHook p.name]⟩

/-- Modelled from the spec: `LowCodePlugin.destroy` (`plugin.ts` is not among
the given sources).  §4.2: invokes the wrapped config's `destroy` hook if
present; safe to call even if `init` never ran; idempotent no-op on repeat.
§7: a `destroy` hook that rejects or throws surfaces as a
`HookExecutionError` to the caller. -/
def LowCodePlugin.destroy (p : LowCodePlugin) : HookCall :=
  if p.destroyed then ⟨true, p, []⟩
  else
    match p.config.destroyBehavior with
    | .absent => ⟨true, { p with destroyed := true }, []⟩
    | .ok => ⟨true, { p with destroyed := true }, [.destroyHook p.name]⟩
    | .throws => ⟨false, p, [.destroyHook p.name]⟩

/-- Modelled from the spec: `LowCodePlugin.setDisabled` (`plugin.ts` is not
among the given sources).  §4.2: toggles visibility without destroying
state. -/
def LowCodePlugin.setDisabled (p : LowCodePlugin) (flag : Bool) : LowCodePlugin :=
  { p with disabled := flag }

/-! ## Dependency sequencer -/

/-- Result of `sequencify`. -/
structure SeqResult : Type where
  sequence : List String
  missingTasks : List String
deriving DecidableEq

/-- Modelled from the spec: one depth-first visit of `sequencify.ts` (not
among the given sources), following §4.1 word for word: on visiting a unit,
recursively visit its dependencies before emitting the unit itself; maintain
a `visiting` marker and treat a cycle as equivalent to a missing dependency
(the cyclic member is reported as missing); a dependency name absent from
`units` is appended to `missingTasks` and the requesting unit is excluded
from `sequence` (a unit is emitted only once all its dependencies have been
sequenced).  Fuel bounds the recursion depth; the visiting path never exceeds
the number of units, so `units.length + 1` fuel is never exhausted. -/
def seqVisit (units : List (String × List String)) :
    Nat → List String → SeqResult → String → SeqResult
  | 0, _, st, _ => st
  | fuel + 1, visiting, st, name =>
    if name ∈ st.sequence then st
    else if name ∈ visiting then
      { st with missingTasks := st.missingTasks ++ [name] }
    else
      match mapGet units name with
      | none => { st with missingTasks := st.missingTasks ++ [name] }
      | some deps =>
        -- visit the dependencies first, then emit the unit itself — but only
        -- once all its dependencies made it into the sequence
        if ∀ d ∈ deps,
            d ∈ (deps.foldl (seqVisit units fuel (name :: visiting))
              st).sequence then
          { deps.foldl (seqVisit units fuel (name :: visiting)) st with
            sequence :=
              (deps.foldl (seqVisit units fuel (name :: visiting))
                st).sequence ++ [name] }
        else deps.foldl (seqVisit units fuel (name :: visiting)) st

/-- Modelled from the spec: `sequencify` (§4.1).  Orders the requested names
by a depth-first traversal from each name in first-seen order. -/
def sequencify (units : List (String × List String)) (names : List String) :
    SeqResult :=
  names.foldl (seqVisit units (units.length + 1) []) ⟨[], []⟩

/-! ## Manager state -/

/-- The registry state of `LowCodePluginManager` (`plugin-manager.ts`).
`pluginPreference` starts as an (empty) `Map`; `none` is JS `undefined`.
`nextObjId` allocates JS object identities for created plugins. -/
structure LowCodePluginManager : Type where
  plugins : List LowCodePlugin := []
  pluginsMap : List (String × LowCodePlugin) := []
  pluginPreference : Option PluginPreference := some []
  nextObjId : Nat := 0
deriving DecidableEq

/-- External collaborators of the manager (spec §6): the configuration
store's `ENGINE_VERSION` and the semantic-version range-matching primitive
(`semver/functions/satisfies` with `includePrerelease`), which is an external
library, taken as an arbitrary boolean function of version and range. -/
structure Env : Type where
  engineVersion : String
  semverSatisfies : String → String → Bool

/-- `isEngineVersionMatched`: whether the host's running version satisfies
the declared range (`plugin-manager.ts` lines 49-54). -/
def isEngineVersionMatched (env : Env) (versionExp : String) : Bool :=
  env.semverSatisfies env.engineVersion versionExp

/-- A plugin factory as consumed by `register`: its statically attached
`pluginName` and `meta` properties, and the config object it returns.  The
factory receives the per-plugin context and filtered options; the context
factory performs no registry logic (spec §4.3) and the returned config is
opaque to the registry apart from the fields embedded in
`ILowCodePluginConfig`, so the factory is embedded by its returned config. -/
structure PluginCreator : Type where
  pluginName : Option String := none
  meta : PluginMeta := {}
  create : ILowCodePluginConfig

/-- `ILowCodeRegisterOptions` (absent boolean options are JS-falsy, i.e.
`false`). -/
structure ILowCodeRegisterOptions : Type where
  autoInit : Bool := false
  override : Bool := false
deriving DecidableEq

/-- `registerOptions?.autoInit` truthy test. -/
def roAutoInit : Option ILowCodeRegisterOptions → Bool
  | none => false
  | some r => r.autoInit

/-- `registerOptions?.override === true` test. -/
def roOverride : Option ILowCodeRegisterOptions → Bool
  | none => false
  | some r => r.override

/-- `pluginName = pluginName || config.name` followed by
`invariant(pluginName, 'pluginConfigCreator.pluginName required', ...)`:
JS-falsy names (absent or empty string) fall through, and a falsy final name
makes `invariant` throw, which is represented by `none`. -/
def derivedName (creator : PluginCreator) : Option String :=
  match creator.pluginName with
  | some s =>
    if s ≠ "" then some s
    else
      match creator.create.name with
      | some t => if t ≠ "" then some t else none
      | none => none
  | none =>
    match creator.create.name with
    | some t => if t ≠ "" then some t else none
    | none => none

/-- `const engineVersionExp = engines && engines.lowcodeEngine`
(JS truthiness: an absent `engines`, absent `lowcodeEngine`, or empty range
string is falsy and skips the gate), then
`if (engineVersionExp && !this.isEngineVersionMatched(engineVersionExp))`. -/
def versionGateFails (env : Env) (meta : PluginMeta) : Bool :=
  match meta.engines with
  | none => false
  | some e =>
    match e.lowcodeEngine with
    | none => false
    | some s => s ≠ "" && !(isEngineVersionMatched env s)

/-- The spec's error taxonomy (§7) for errors raised out of `register`
(`hookError` is the `HookExecutionError` of a throwing `init` hook during
`autoInit`). -/
inductive RegisterError : Type
  | configuration
  | duplicate
  | incompatibleVersion
  | hookError
deriving DecidableEq

/-- Result of a `register` call: `error = none` means the returned promise
resolved.  `state` is the manager's registry after the call — mutations
performed before a throw persist, exactly as for the in-place mutations of
the source. -/
structure RegResult : Type where
  error : Option RegisterError
  state : LowCodePluginManager
  events : List PEvent
deriving DecidableEq

/-- In-place mutation of a plugin object: every alias of the object (in the
`plugins` array and in `pluginsMap`) observes the new state.  Aliases are
identified by the JS object identity tag `objId`. -/
def updatePlugin (m : LowCodePluginManager) (i : Nat) (p' : LowCodePlugin) :
    LowCodePluginManager :=
  { m with
    plugins := m.plugins.map fun q => if q.objId = i then p' else q,
    pluginsMap := m.pluginsMap.map fun kv =>
      if kv.2.objId = i then (kv.1, p') else kv }

/-- `this.plugins.push(plugin); this.pluginsMap.set(pluginName, plugin)`
(lines 130-131), plus allocation of the new object's identity. -/
def pushPlugin (m : LowCodePluginManager) (pluginName : String)
    (p : LowCodePlugin) : LowCodePluginManager :=
  { m with
    plugins := m.plugins ++ [p],
    pluginsMap := mapSet m.pluginsMap pluginName p,
    nextObjId := m.nextObjId + 1 }

/-- The tail of `register` after the duplicate handling (lines 117-132):
version gate, plugin creation, optional `autoInit`, and installation.  `evs`
are the events already emitted by the duplicate-override handling. -/
def registerTail (env : Env) (m : LowCodePluginManager)
    (creator : PluginCreator) (ro : Option ILowCodeRegisterOptions)
    (pluginName : String) (evs : List PEvent) : RegResult :=
  if versionGateFails env creator.meta then
    ⟨some .incompatibleVersion, m, evs⟩
  else
    let plugin : LowCodePlugin :=
      { name := pluginName, config := creator.create, meta := creator.meta,
        objId := m.nextObjId }
    if roAutoInit ro then
      let r := plugin.init
      if r.ok then ⟨none, pushPlugin m pluginName r.plugin, evs ++ r.events⟩
      else ⟨some .hookError, m, evs ++ r.events⟩
    else ⟨none, pushPlugin m pluginName plugin, evs⟩

/-- `LowCodePluginManager.register` (lines 67-133).  The context creation and
`ctx.setPreference` call touch only the per-plugin context (spec §4.3: no
registry logic) and are not part of the registry state.  In the override
branch the original plugin's `destroy()` is invoked without `await` and a
rejection is discarded (fire-and-forget), matching line 112. -/
def LowCodePluginManager.register (m : LowCodePluginManager) (env : Env)
    (creator : PluginCreator) (ro : Option ILowCodeRegisterOptions) :
    RegResult :=
  match derivedName creator with
  | none => ⟨some .configuration, m, []⟩
  | some pluginName =>
    if mapHas m.pluginsMap pluginName then
      if roOverride ro = false then ⟨some .duplicate, m, []⟩
      else
        match mapGet m.pluginsMap pluginName with
        | some originalPlugin =>
          let d := originalPlugin.destroy
          let m1 := updatePlugin m originalPlugin.objId d.plugin
          registerTail env
            { m1 with pluginsMap := mapDelete m1.pluginsMap pluginName }
            creator ro pluginName d.events
        | none =>
          registerTail env
            { m with pluginsMap := mapDelete m.pluginsMap pluginName }
            creator ro pluginName []
    else registerTail env m creator ro pluginName []

/-- `get` (lines 135-137). -/
def LowCodePluginManager.get (m : LowCodePluginManager) (pluginName : String) :
    Option LowCodePlugin :=
  mapGet m.pluginsMap pluginName

/-- `getAll` (lines 139-141). -/
def LowCodePluginManager.getAll (m : LowCodePluginManager) :
    List LowCodePlugin :=
  m.plugins

/-- `has` (lines 143-145). -/
def LowCodePluginManager.has (m : LowCodePluginManager) (pluginName : String) :
    Bool :=
  mapHas m.pluginsMap pluginName

/-- `size` getter (lines 194-196). -/
def LowCodePluginManager.size (m : LowCodePluginManager) : Nat :=
  mapSize m.pluginsMap

/-- `delete` (lines 147-155): find the unit by name in `plugins`, await its
`destroy` (a rejection aborts the method, leaving the splice and map removal
unexecuted: result `none`), then splice it out of `plugins` and delete it
from `pluginsMap` (whose boolean result is returned). -/
def LowCodePluginManager.delete (m : LowCodePluginManager)
    (pluginName : String) : Option Bool × LowCodePluginManager × List PEvent :=
  match m.plugins.findIdx? (fun p => p.name = pluginName) with
  | none => (some false, m, [])
  | some idx =>
    match m.plugins[idx]? with
    | none => (some false, m, [])
    | some plugin =>
      let r := plugin.destroy
      let m1 := updatePlugin m plugin.objId r.plugin
      if r.ok then
        let m2 := { m1 with plugins := m1.plugins.eraseIdx idx }
        (some (mapHas m2.pluginsMap pluginName),
          { m2 with pluginsMap := mapDelete m2.pluginsMap pluginName },
          r.events)
      else (none, m1, r.events)

/-- The plugin names in registration order (`pluginNames` of `init`,
lines 164-170). -/
def pluginNamesOf (m : LowCodePluginManager) : List String :=
  m.plugins.map LowCodePlugin.name

/-- The `pluginObj` plain object of `init` (lines 165-170): JS property
assignment in a loop, so a later plugin with the same name overwrites the
value while keeping the first key position. -/
def pluginObjOf (m : LowCodePluginManager) : List (String × LowCodePlugin) :=
  m.plugins.foldl (fun acc p => mapSet acc p.name p) []

/-- The name → dependency-list mapping handed to the Sequencer. -/
def unitsOf (m : LowCodePluginManager) : List (String × List String) :=
  (pluginObjOf m).map fun kv => (kv.1, kv.2.deps)

/-- The ordered init pass (lines 176-185): `await` each unit's `init` in
sequence order inside `try/catch`; a failure is logged
(`logger.error(...)`, one `logError` event) and does not abort the loop. -/
def initLoop : List String → LowCodePluginManager →
    LowCodePluginManager × List PEvent
  | [], m => (m, [])
  | n :: rest, m =>
    match mapGet m.pluginsMap n with
    | none =>
      -- `this.pluginsMap.get(pluginName)!.init()` on `undefined` throws a
      -- TypeError, which the catch logs before continuing.
      ((initLoop rest m).1, .logError n :: (initLoop rest m).2)
    | some p =>
      let r := p.init
      let m1 := updatePlugin m p.objId r.plugin
      ((initLoop rest m1).1,
        (r.events ++ (if r.ok then [] else [.logError n])) ++
          (initLoop rest m1).2)

/-- Result of the manager's `init`: whether the returned promise resolved
(`ok = false` is the `invariant` throw on missing dependencies), the
resulting state and the events of the pass. -/
structure InitResult : Type where
  ok : Bool
  state : LowCodePluginManager
  events : List PEvent
deriving DecidableEq

/-- `init` (lines 163-186): snapshot the preferences, sequence the registered
units, throw (`invariant`, modelled from the spec as: throw iff the condition
is falsy, i.e. iff `missingTasks` is non-empty — the util is not among the
given sources) before any unit initializes, else run the ordered pass. -/
def LowCodePluginManager.init (m : LowCodePluginManager)
    (pluginPreference : Option PluginPreference) : InitResult :=
  let m0 := { m with pluginPreference := pluginPreference }
  let r := sequencify (unitsOf m0) (pluginNamesOf m0)
  if r.missingTasks = [] then
    ⟨true, (initLoop r.sequence m0).1, (initLoop r.sequence m0).2⟩
  else ⟨false, m0, []⟩

/-- The teardown loop of `destroy` (lines 188-192): `for (const plugin of
this.plugins) await plugin.destroy();` — there is no try/catch, so a
rejection aborts the loop and rejects `destroy`. -/
def destroyLoop : List LowCodePlugin → LowCodePluginManager →
    Bool × LowCodePluginManager × List PEvent
  | [], m => (true, m, [])
  | p :: rest, m =>
    let r := p.destroy
    let m1 := updatePlugin m p.objId r.plugin
    if r.ok then
      ((destroyLoop rest m1).1, (destroyLoop rest m1).2.1,
        r.events ++ (destroyLoop rest m1).2.2)
    else (false, m1, r.events)

/-- `destroy` (lines 188-192). -/
def LowCodePluginManager.destroy (m : LowCodePluginManager) :
    Bool × LowCodePluginManager × List PEvent :=
  destroyLoop m.plugins m

/-- `dispose` (lines 227-231): `await this.destroy()` (a rejection
propagates, leaving the registry unclear), then reset `plugins` and clear
`pluginsMap`. -/
def LowCodePluginManager.dispose (m : LowCodePluginManager) :
    Bool × LowCodePluginManager × List PEvent :=
  if m.destroy.1 then
    (true, { m.destroy.2.1 with plugins := [], pluginsMap := [] },
      m.destroy.2.2)
  else (false, m.destroy.2.1, m.destroy.2.2)

/-- The JS value returned by `getPluginPreference` (lines 198-203): `null`
when no preference snapshot is stored, `undefined` when the snapshot has no
entry for the name, else the entry. -/
inductive PrefLookup : Type
  | null
  | undef
  | value (v : PrefRecord)
deriving DecidableEq

/-- `getPluginPreference` (lines 198-203). -/
def LowCodePluginManager.getPluginPreference (m : LowCodePluginManager)
    (pluginName : String) : PrefLookup :=
  match m.pluginPreference with
  | none => .null
  | some pref =>
    match mapGet pref pluginName with
    | none => .undef
    | some v => .value v

/-- What a property access on the surface returned by `toProxy` yields. -/
inductive ProxyResult : Type
  | pluginProxy (objId : Nat)
  | absent
  | managerApi
deriving DecidableEq

/-- The `get` trap of `toProxy` (lines 206-219): a registered name yields
`undefined` when the unit is disabled, else the unit's capability proxy
(`plugin.toProxy()`, modelled from the spec §4.2 as an opaque read-restricted
view of that unit, identified here by the unit's object identity); any other
property falls through to `Reflect.get` on the manager itself. -/
def LowCodePluginManager.proxyGet (m : LowCodePluginManager) (prop : String) :
    ProxyResult :=
  if mapHas m.pluginsMap prop then
    match mapGet m.pluginsMap prop with
    | some p => if p.disabled then .absent else .pluginProxy p.objId
    | none => .managerApi
  else .managerApi

/-- `setDisabled` (lines 221-225): `this.pluginsMap.get(pluginName)?.
setDisabled(flag)` — a no-op for an unregistered name. -/
def LowCodePluginManager.setDisabled (m : LowCodePluginManager)
    (pluginName : String) (flag : Bool) : LowCodePluginManager :=
  match mapGet m.pluginsMap pluginName with
  | none => m
  | some p => updatePlugin m p.objId (p.setDisabled flag)

/-- A freshly constructed manager (fields as initialized in
`plugin-manager.ts` lines 29-33: empty array, empty `Map`, empty preference
`Map`). -/
def emptyManager : LowCodePluginManager := {}

/-- One public operation of the manager, for stating registry invariants. -/
inductive Op : Type
  | register (creator : PluginCreator) (ro : Option ILowCodeRegisterOptions)
  | delete (pluginName : String)
  | init (pref : Option PluginPreference)
  | setDisabled (pluginName : String) (flag : Bool)
  | dispose

/-- The registry state after one public operation (whether or not the
operation's promise rejected: mutations performed before a throw persist). -/
def applyOp (env : Env) (m : LowCodePluginManager) : Op → LowCodePluginManager
  | .register creator ro => (m.register env creator ro).state
  | .delete n => (m.delete n).2.1
  | .init pref => (m.init pref).state
  | .setDisabled n flag => m.setDisabled n flag
  | .dispose => m.dispose.2.1

/-- Whether a `register` operation reaches the destroy-and-remove branch for
an already-registered name (lines 103-114). -/
def entersOverrideBranch (m : LowCodePluginManager) : Op → Bool
  | .register creator ro =>
    (match derivedName creator with
     | some n => roOverride ro && mapHas m.pluginsMap n
     | none => false)
  | _ => false

/-! ## Registry invariant -/

/-- The `pluginsMap` entry corresponding to a plugin. -/
def pairEntry (p : LowCodePlugin) : String × LowCodePlugin := (p.name, p)

/-- The registry invariant of spec §3: `pluginsMap` is exactly the
name-indexed view of `plugins` (hence `pluginsMap.size == plugins.length`,
and each name refers to the same object as the corresponding `plugins`
entry), names are unique, and object identities are unique and below the
allocation counter. -/
abbrev Inv (m : LowCodePluginManager) : Prop :=
  m.pluginsMap = m.plugins.map pairEntry ∧
  (m.plugins.map LowCodePlugin.name).Nodup ∧
  (m.plugins.map LowCodePlugin.objId).Nodup ∧
  ∀ p ∈ m.plugins, p.objId < m.nextObjId

/-! ## Concrete instances for witnesses and counterexamples -/

/-- A host environment whose version satisfies no range (e.g. host `1.0.0`
against requirement `^2.0.0`). -/
def env0 : Env := ⟨"1.0.0", fun _ _ => false⟩

/-- A config with both lifecycle hooks present and succeeding. -/
def cfgOk : ILowCodePluginConfig :=
  { initBehavior := .ok, destroyBehavior := .ok }

/-- A config whose `init` hook throws. -/
def cfgInitThrows : ILowCodePluginConfig :=
  { initBehavior := .throws, destroyBehavior := .ok }

/-- A config whose `destroy` hook throws. -/
def cfgDestroyThrows : ILowCodePluginConfig :=
  { initBehavior := .ok, destroyBehavior := .throws }

/-- A factory with a declared `pluginName` and the given config. -/
def mkCreator (n : String) (c : ILowCodePluginConfig) : PluginCreator :=
  { pluginName := some n, create := c }

/-- A factory like `mkCreator` that additionally declares dependencies. -/
def mkCreatorDeps (n : String) (ds : List String)
    (c : ILowCodePluginConfig) : PluginCreator :=
  { pluginName := some n, meta := { dependencies := ds }, create := c }

/-- A factory for name `"x"` that declares `engines.lowcodeEngine = "^2.0.0"`
(unsatisfied under `env0`). -/
def cXv2 : PluginCreator :=
  { pluginName := some "x",
    meta := { engines := some ⟨some "^2.0.0"⟩ },
    create := cfgOk }

/-- The manager with the single plugin `"x"` (hooks present and succeeding),
obtained by one successful registration. -/
def mX : LowCodePluginManager :=
  (emptyManager.register env0 (mkCreator "x" cfgOk) none).state

/-- `register` options requesting an override without `autoInit`. -/
def roOv : Option ILowCodeRegisterOptions :=
  some { override := true, autoInit := false }

/-- The manager with the dependency cycle `a → b → a`. -/
def mCycle : LowCodePluginManager :=
  ((emptyManager.register env0 (mkCreatorDeps "a" ["b"] cfgOk) none).state.register
    env0 (mkCreatorDeps "b" ["a"] cfgOk) none).state

/-- The manager with one plugin `"m"` depending on the unregistered name
`"ghost"`. -/
def mMissing : LowCodePluginManager :=
  (emptyManager.register env0 (mkCreatorDeps "m" ["ghost"] cfgOk) none).state

/-- Three independent plugins `p1`, `p2`, `p3`, the middle one's `init` hook
throwing. -/
def mThree : LowCodePluginManager :=
  (((emptyManager.register env0 (mkCreator "p1" cfgOk) none).state.register
      env0 (mkCreator "p2" cfgInitThrows) none).state.register
    env0 (mkCreator "p3" cfgOk) none).state

/-- Two plugins, the first one's `destroy` hook throwing. -/
def mBadDestroy : LowCodePluginManager :=
  ((emptyManager.register env0 (mkCreator "a" cfgDestroyThrows) none).state.register
    env0 (mkCreator "b" cfgOk) none).state

/-- The `initHook` names occurring in an event trace, in order. -/
def initHookNames (evs : List PEvent) : List String :=
  evs.filterMap fun e =>
    match e with
    | .initHook n => some n
    | _ => none

/-- The name/identity signature of the registry: lifecycle mutations never
change it. -/
def namesIds (m : LowCodePluginManager) : List (String × Nat) :=
  m.plugins.map fun q => (q.name, q.objId)

/-- The state of a not-yet-initialized unit after one pass of the ordered
init loop: a resolving `init` (hook absent or succeeding) marks it
initialized; a throwing hook leaves it uninitialized. -/
def afterInit (p : LowCodePlugin) : LowCodePlugin :=
  match p.config.initBehavior with
  | .throws => p
  | _ => { p with inited := true }

/-- The events of one pass of the ordered init loop over a not-yet-initialized
unit: the hook invocation if a hook is present, followed by the manager's
error logging when the hook throws. -/
def initPassEvents (p : LowCodePlugin) : List PEvent :=
  match p.config.initBehavior with
  | .absent => []
  | .ok => [.initHook p.name]
  | .throws => [.initHook p.name, .logError p.name]

/-! ## Lemmas about the JS `Map` embedding -/

theorem mapGet_mapSet_self {α : Type} (l : List (String × α)) (k : String)
    (v : α) : mapGet (mapSet l k v) k = some v := by
  induction l with
  | nil => simp [mapSet, mapGet]
  | cons hd tl ih =>
    obtain ⟨k', w⟩ := hd
    by_cases h : k' = k <;> simp [mapSet, mapGet, h, ih]

theorem mapGet_eq_none_of_has_false {α : Type} {l : List (String × α)}
    {k : String} (h : mapHas l k = false) : mapGet l k = none := by
  cases hg : mapGet l k with
  | none => rfl
  | some v => rw [mapHas, hg] at h; simp at h

theorem mapSet_of_has_false {α : Type} {l : List (String × α)} {k : String}
    (v : α) (h : mapHas l k = false) : mapSet l k v = l ++ [(k, v)] := by
  induction l with
  | nil => simp [mapSet]
  | cons hd tl ih =>
    obtain ⟨k', w⟩ := hd
    by_cases hk : k' = k
    · exfalso
      simp [mapHas, mapGet, hk] at h
    · simp only [mapHas, mapGet, hk, if_false] at h
      simp [mapSet, hk, ih h]

theorem mapGet_map_pair {l : List LowCodePlugin} {n : String}
    {p : LowCodePlugin} (h : mapGet (l.map pairEntry) n = some p) :
    p ∈ l ∧ p.name = n := by
  induction l with
  | nil => simp [mapGet] at h
  | cons hd tl ih =>
    by_cases hk : hd.name = n
    · simp only [List.map_cons, pairEntry, mapGet, hk, if_true,
        Option.some.injEq] at h
      subst h
      exact ⟨List.mem_cons_self _ _, hk⟩
    · simp only [List.map_cons, pairEntry, mapGet, hk, if_false] at h
      obtain ⟨hmem, hname⟩ := ih h
      exact ⟨List.mem_cons_of_mem _ hmem, hname⟩

theorem mapGet_map_pair_of_not_mem {l : List LowCodePlugin} {n : String}
    (h : n ∉ l.map LowCodePlugin.name) : mapGet (l.map pairEntry) n = none := by
  induction l with
  | nil => simp [mapGet]
  | cons hd tl ih =>
    simp only [List.map_cons, List.mem_cons, not_or] at h
    simp [mapGet, pairEntry, Ne.symm h.1, ih h.2]

theorem mapHas_map_pair (l : List LowCodePlugin) (n : String) :
    mapHas (l.map pairEntry) n = true ↔ n ∈ l.map LowCodePlugin.name := by
  induction l with
  | nil => simp [mapHas, mapGet]
  | cons hd tl ih =>
    by_cases hk : hd.name = n
    · simp [mapHas, mapGet, pairEntry, hk]
    · simp only [List.map_cons, pairEntry, mapHas, mapGet, hk, if_false,
        List.mem_cons]
      rw [show (mapGet (tl.map pairEntry) n).isSome =
            mapHas (tl.map pairEntry) n from rfl, ih]
      constructor
      · exact Or.inr
      · rintro (h | h)
        · exact absurd h.symm hk
        · exact h

theorem mapDelete_map_pair (l : List LowCodePlugin) (n : String) :
    mapDelete (l.map pairEntry) n =
      (l.eraseP (fun p => decide (p.name = n))).map pairEntry := by
  induction l with
  | nil => simp [mapDelete]
  | cons hd tl ih =>
    by_cases hk : hd.name = n
    · simp [mapDelete, pairEntry, hk, List.eraseP_cons]
    · simp [mapDelete, pairEntry, hk, List.eraseP_cons, ih]

theorem mapGet_map_update {l : List (String × LowCodePlugin)} {x : String}
    {p : LowCodePlugin} (h : mapGet l x = some p) (i : Nat)
    (p' : LowCodePlugin) :
    mapGet (l.map fun kv => if kv.2.objId = i then (kv.1, p') else kv) x =
      some (if p.objId = i then p' else p) := by
  induction l with
  | nil => simp [mapGet] at h
  | cons hd tl ih =>
    obtain ⟨k, v⟩ := hd
    have hd1 : (if (k, v).2.objId = i then ((k, v).1, p') else (k, v)) =
        (k, if v.objId = i then p' else v) := by
      by_cases hv : v.objId = i <;> simp [hv]
    rw [List.map_cons, hd1]
    by_cases hk : k = x
    · rw [mapGet, if_pos hk] at h ⊢
      obtain rfl : v = p := Option.some.inj h
      rfl
    · rw [mapGet, if_neg hk] at h ⊢
      exact ih h

theorem mapHas_map_update (l : List (String × LowCodePlugin)) (x : String)
    (i : Nat) (p' : LowCodePlugin) :
    mapHas (l.map fun kv => if kv.2.objId = i then (kv.1, p') else kv) x =
      mapHas l x := by
  induction l with
  | nil => rfl
  | cons hd tl ih =>
    obtain ⟨k, v⟩ := hd
    have hd1 : (if (k, v).2.objId = i then ((k, v).1, p') else (k, v)) =
        (k, if v.objId = i then p' else v) := by
      by_cases hv : v.objId = i <;> simp [hv]
    rw [List.map_cons, hd1]
    by_cases hk : k = x
    · rw [mapHas, mapGet, if_pos hk, mapHas, mapGet, if_pos hk]
      rfl
    · rw [mapHas, mapGet, if_neg hk, mapHas, mapGet, if_neg hk]
      exact ih

/-! ## Lemmas about `updatePlugin` and the registry invariant -/

theorem eq_of_objId_nodup {l : List LowCodePlugin}
    (h : (l.map LowCodePlugin.objId).Nodup) {p q : LowCodePlugin}
    (hq : q ∈ l) (hp : p ∈ l) (hid : q.objId = p.objId) : q = p :=
  List.inj_on_of_nodup_map h hq hp hid

theorem namesIds_fst (m : LowCodePluginManager) :
    (namesIds m).map Prod.fst = m.plugins.map LowCodePlugin.name := by
  rw [namesIds, List.map_map]; rfl

theorem namesIds_snd (m : LowCodePluginManager) :
    (namesIds m).map Prod.snd = m.plugins.map LowCodePlugin.objId := by
  rw [namesIds, List.map_map]; rfl

theorem updatePlugin_inv {m : LowCodePluginManager} {i : Nat}
    {p' : LowCodePlugin} (hm : Inv m) (hpid : p'.objId = i)
    (hcond : ∀ q ∈ m.plugins, q.objId = i → q.name = p'.name) :
    Inv (updatePlugin m i p') ∧
    namesIds (updatePlugin m i p') = namesIds m ∧
    (updatePlugin m i p').pluginPreference = m.pluginPreference ∧
    (updatePlugin m i p').nextObjId = m.nextObjId := by
  obtain ⟨hpair, hnames, hids, hbound⟩ := hm
  have hplugins : (updatePlugin m i p').plugins =
      m.plugins.map fun q => if q.objId = i then p' else q := rfl
  have hsig : namesIds (updatePlugin m i p') = namesIds m := by
    rw [namesIds, hplugins, List.map_map, namesIds]
    refine List.map_congr_left ?_
    intro q hq
    by_cases h : q.objId = i
    · simp [h, hcond q hq h, hpid]
    · simp [h]
  have hnames' : (updatePlugin m i p').plugins.map LowCodePlugin.name =
      m.plugins.map LowCodePlugin.name := by
    rw [← namesIds_fst, ← namesIds_fst, hsig]
  have hids' : (updatePlugin m i p').plugins.map LowCodePlugin.objId =
      m.plugins.map LowCodePlugin.objId := by
    rw [← namesIds_snd, ← namesIds_snd, hsig]
  have hmapside : (updatePlugin m i p').pluginsMap =
      (updatePlugin m i p').plugins.map pairEntry := by
    show m.pluginsMap.map _ = _
    rw [hpair, hplugins, List.map_map, List.map_map]
    refine List.map_congr_left ?_
    intro q hq
    by_cases h : q.objId = i
    · simp [pairEntry, h, hcond q hq h]
    · simp [pairEntry, h]
  refine ⟨⟨hmapside, ?_, ?_, ?_⟩, hsig, rfl, rfl⟩
  · rw [hnames']; exact hnames
  · rw [hids']; exact hids
  · intro q hq
    rw [hplugins] at hq
    obtain ⟨q0, hq0, hq0e⟩ := List.mem_map.mp hq
    by_cases h : q0.objId = i
    · rw [if_pos h] at hq0e
      subst hq0e
      show p'.objId < _
      rw [hpid, ← h]
      exact hbound q0 hq0
    · rw [if_neg h] at hq0e
      subst hq0e
      exact hbound q0 hq0

/-- `updatePlugin` for a plugin taken from the registry of an invariant
state: the standard instantiation of `updatePlugin_inv`. -/
theorem updatePlugin_inv_mem {m : LowCodePluginManager}
    {p p' : LowCodePlugin} (hm : Inv m) (hp : p ∈ m.plugins)
    (hn : p'.name = p.name) (hi : p'.objId = p.objId) :
    Inv (updatePlugin m p.objId p') ∧
    namesIds (updatePlugin m p.objId p') = namesIds m ∧
    (updatePlugin m p.objId p').pluginPreference = m.pluginPreference ∧
    (updatePlugin m p.objId p').nextObjId = m.nextObjId := by
  refine updatePlugin_inv hm hi ?_
  intro q hq hqi
  have hqp : q = p := eq_of_objId_nodup hm.2.2.1 hq hp hqi
  rw [hqp, hn]

/-! ## Field preservation of the unit lifecycle methods -/

theorem init_plugin_name (p : LowCodePlugin) :
    p.init.plugin.name = p.name := by
  by_cases h : p.inited
  · simp [LowCodePlugin.init, h]
  · cases hb : p.config.initBehavior <;> simp [LowCodePlugin.init, h, hb]

theorem init_plugin_objId (p : LowCodePlugin) :
    p.init.plugin.objId = p.objId := by
  by_cases h : p.inited
  · simp [LowCodePlugin.init, h]
  · cases hb : p.config.initBehavior <;> simp [LowCodePlugin.init, h, hb]

theorem destroy_plugin_name (p : LowCodePlugin) :
    p.destroy.plugin.name = p.name := by
  by_cases h : p.destroyed
  · simp [LowCodePlugin.destroy, h]
  · cases hb : p.config.destroyBehavior <;> simp [LowCodePlugin.destroy, h, hb]

theorem destroy_plugin_objId (p : LowCodePlugin) :
    p.destroy.plugin.objId = p.objId := by
  by_cases h : p.destroyed
  · simp [LowCodePlugin.destroy, h]
  · cases hb : p.config.destroyBehavior <;> simp [LowCodePlugin.destroy, h, hb]

/-! ## Characterization of the `register` branches -/

theorem register_config_case {env : Env} {m : LowCodePluginManager}
    {creator : PluginCreator} {ro : Option ILowCodeRegisterOptions}
    (hd : derivedName creator = none) :
    m.register env creator ro = ⟨some .configuration, m, []⟩ := by
  simp [LowCodePluginManager.register, hd]

theorem register_duplicate_case {env : Env} {m : LowCodePluginManager}
    {creator : PluginCreator} {ro : Option ILowCodeRegisterOptions}
    {x : String} (hd : derivedName creator = some x)
    (hhas : mapHas m.pluginsMap x = true) (hov : roOverride ro = false) :
    m.register env creator ro = ⟨some .duplicate, m, []⟩ := by
  simp [LowCodePluginManager.register, hd, hhas, hov]

theorem register_fresh_case {env : Env} {m : LowCodePluginManager}
    {creator : PluginCreator} {ro : Option ILowCodeRegisterOptions}
    {x : String} (hd : derivedName creator = some x)
    (hhas : mapHas m.pluginsMap x = false) :
    m.register env creator ro = registerTail env m creator ro x [] := by
  simp [LowCodePluginManager.register, hd, hhas]

theorem register_override_case {env : Env} {m : LowCodePluginManager}
    {creator : PluginCreator} {ro : Option ILowCodeRegisterOptions}
    {x : String} {orig : LowCodePlugin} (hd : derivedName creator = some x)
    (hget : mapGet m.pluginsMap x = some orig) (hov : roOverride ro = true) :
    m.register env creator ro =
      registerTail env
        { updatePlugin m orig.objId orig.destroy.plugin with
          pluginsMap :=
            mapDelete (updatePlugin m orig.objId orig.destroy.plugin).pluginsMap
              x }
        creator ro x orig.destroy.events := by
  have hhas : mapHas m.pluginsMap x = true := by rw [mapHas, hget]; rfl
  simp [LowCodePluginManager.register, hd, hhas, hov, hget]

theorem registerTail_version_fail {env : Env} {m : LowCodePluginManager}
    {creator : PluginCreator} {ro : Option ILowCodeRegisterOptions}
    {x : String} {evs : List PEvent}
    (hv : versionGateFails env creator.meta = true) :
    registerTail env m creator ro x evs = ⟨some .incompatibleVersion, m, evs⟩ := by
  simp [registerTail, hv]

theorem registerTail_plain {env : Env} {m : LowCodePluginManager}
    {creator : PluginCreator} {ro : Option ILowCodeRegisterOptions}
    {x : String} {evs : List PEvent}
    (hv : versionGateFails env creator.meta = false)
    (ha : roAutoInit ro = false) :
    registerTail env m creator ro x evs =
      ⟨none,
        pushPlugin m x
          { name := x, config := creator.create, meta := creator.meta,
            objId := m.nextObjId }, evs⟩ := by
  simp [registerTail, hv, ha]

theorem registerTail_autoInit {env : Env} {m : LowCodePluginManager}
    {creator : PluginCreator} {ro : Option ILowCodeRegisterOptions}
    {x : String} {evs : List PEvent}
    (hv : versionGateFails env creator.meta = false)
    (ha : roAutoInit ro = true) :
    registerTail env m creator ro x evs =
      (if (LowCodePlugin.init
            { name := x, config := creator.create, meta := creator.meta,
              objId := m.nextObjId }).ok then
        ⟨none,
          pushPlugin m x
            (LowCodePlugin.init
              { name := x, config := creator.create, meta := creator.meta,
                objId := m.nextObjId }).plugin,
          evs ++ (LowCodePlugin.init
            { name := x, config := creator.create, meta := creator.meta,
              objId := m.nextObjId }).events⟩
      else
        ⟨some .hookError, m,
          evs ++ (LowCodePlugin.init
            { name := x, config := creator.create, meta := creator.meta,
              objId := m.nextObjId }).events⟩) := by
  simp [registerTail, hv, ha]

/-! ## Invariant preservation -/

theorem not_mem_names_of_has_false {m : LowCodePluginManager} {x : String}
    (hm : Inv m) (hhas : mapHas m.pluginsMap x = false) :
    x ∉ m.plugins.map LowCodePlugin.name := by
  intro hmem
  rw [hm.1] at hhas
  rw [(mapHas_map_pair m.plugins x).mpr hmem] at hhas
  exact absurd hhas (by simp)

theorem pushPlugin_inv {m : LowCodePluginManager} {x : String}
    {p : LowCodePlugin} (hm : Inv m) (hhas : mapHas m.pluginsMap x = false)
    (hname : p.name = x) (hid : p.objId = m.nextObjId) :
    Inv (pushPlugin m x p) := by
  obtain ⟨hpair, hnames, hids, hbound⟩ := hm
  have hx : x ∉ m.plugins.map LowCodePlugin.name :=
    not_mem_names_of_has_false ⟨hpair, hnames, hids, hbound⟩ hhas
  have hset : mapSet m.pluginsMap x p = m.pluginsMap ++ [(x, p)] :=
    mapSet_of_has_false p hhas
  refine ⟨?_, ?_, ?_, ?_⟩
  · show mapSet m.pluginsMap x p = (m.plugins ++ [p]).map pairEntry
    rw [hset, hpair, List.map_append]
    simp [pairEntry, hname]
  · show ((m.plugins ++ [p]).map LowCodePlugin.name).Nodup
    rw [List.map_append]
    simp only [List.map_cons, List.map_nil, List.nodup_append]
    refine ⟨hnames, List.nodup_singleton _, ?_⟩
    intro a ha hb
    simp only [List.mem_singleton] at hb
    subst hb
    rw [hname] at ha
    exact hx ha
  · show ((m.plugins ++ [p]).map LowCodePlugin.objId).Nodup
    rw [List.map_append]
    simp only [List.map_cons, List.map_nil, List.nodup_append]
    refine ⟨hids, List.nodup_singleton _, ?_⟩
    intro a ha hb
    simp only [List.mem_singleton] at hb
    subst hb
    rw [hid] at ha
    obtain ⟨q, hq, hqe⟩ := List.mem_map.mp ha
    exact absurd hqe (Nat.ne_of_lt (hbound q hq))
  · intro q hq
    show q.objId < m.nextObjId + 1
    rcases List.mem_append.mp hq with h | h
    · exact Nat.lt_succ_of_lt (hbound q h)
    · rw [List.mem_singleton] at h
      subst h
      rw [hid]
      exact Nat.lt_succ_self _

theorem register_inv {env : Env} {m : LowCodePluginManager}
    {creator : PluginCreator} {ro : Option ILowCodeRegisterOptions}
    (hm : Inv m)
    (hno : entersOverrideBranch m (.register creator ro) = false) :
    Inv (m.register env creator ro).state := by
  cases hd : derivedName creator with
  | none => rw [register_config_case hd]; exact hm
  | some x =>
    cases hhas : mapHas m.pluginsMap x with
    | true =>
      have hov : roOverride ro = false := by
        simp only [entersOverrideBranch, hd, hhas, Bool.and_eq_false_iff] at hno
        rcases hno with h | h
        · exact h
        · exact absurd h (by simp)
      rw [register_duplicate_case hd hhas hov]
      exact hm
    | false =>
      rw [register_fresh_case hd hhas]
      cases hv : versionGateFails env creator.meta with
      | true => rw [registerTail_version_fail hv]; exact hm
      | false =>
        cases ha : roAutoInit ro with
        | false =>
          rw [registerTail_plain hv ha]
          exact pushPlugin_inv hm hhas rfl rfl
        | true =>
          rw [registerTail_autoInit hv ha]
          by_cases hok : (LowCodePlugin.init
              { name := x, config := creator.create, meta := creator.meta,
                objId := m.nextObjId }).ok
          · rw [if_pos hok]
            exact pushPlugin_inv hm hhas (init_plugin_name _)
              (init_plugin_objId _)
          · rw [if_neg hok]
            exact hm

theorem eraseP_eq_eraseIdx {α : Type} {pr : α → Bool} :
    ∀ {l : List α} {idx : Nat}, l.findIdx? pr = some idx →
      l.eraseP pr = l.eraseIdx idx := by
  intro l
  induction l with
  | nil => intro idx h; simp at h
  | cons hd tl ih =>
    intro idx h
    by_cases hp : pr hd
    · rw [List.findIdx?_cons, if_pos hp] at h
      obtain rfl : (0 : Nat) = idx := Option.some.inj h
      simp [List.eraseP_cons_of_pos hp]
    · rw [List.findIdx?_cons, if_neg hp, List.findIdx?_succ] at h
      obtain ⟨j, hj, rfl⟩ : ∃ j, tl.findIdx? pr = some j ∧ j + 1 = idx := by
        cases hfi : tl.findIdx? pr with
        | none => rw [hfi] at h; simp at h
        | some j => rw [hfi] at h; exact ⟨j, rfl, by simpa using h⟩
      rw [List.eraseP_cons_of_neg hp, ih hj, List.eraseIdx_cons_succ]

theorem findIdx?_name_congr {n : String} :
    ∀ {l l' : List LowCodePlugin},
      l.map LowCodePlugin.name = l'.map LowCodePlugin.name →
      ∀ i, l.findIdx? (fun p => p.name = n) i =
        l'.findIdx? (fun p => p.name = n) i := by
  intro l
  induction l with
  | nil =>
    intro l' h i
    cases l' with
    | nil => rfl
    | cons a b => simp at h
  | cons hd tl ih =>
    intro l' h i
    cases l' with
    | nil => simp at h
    | cons hd' tl' =>
      simp only [List.map_cons, List.cons.injEq] at h
      rw [List.findIdx?_cons, List.findIdx?_cons, h.1, ih h.2]

theorem delete_inv {m : LowCodePluginManager} {n : String} (hm : Inv m) :
    Inv (m.delete n).2.1 := by
  cases hidx : m.plugins.findIdx? (fun p => p.name = n) with
  | none => simp only [LowCodePluginManager.delete, hidx]; exact hm
  | some idx =>
    cases hp : m.plugins[idx]? with
    | none => simp only [LowCodePluginManager.delete, hidx, hp]; exact hm
    | some p =>
      have hpmem : p ∈ m.plugins := List.getElem?_mem hp
      obtain ⟨hm1, hsig1, _, _⟩ :=
        updatePlugin_inv_mem hm hpmem (destroy_plugin_name p)
          (destroy_plugin_objId p)
      by_cases hok : p.destroy.ok
      · simp only [LowCodePluginManager.delete, hidx, hp, hok, if_true]
        have hnames1 :
            (updatePlugin m p.objId p.destroy.plugin).plugins.map
              LowCodePlugin.name = m.plugins.map LowCodePlugin.name := by
          rw [← namesIds_fst, ← namesIds_fst, hsig1]
        have hidx1 : (updatePlugin m p.objId p.destroy.plugin).plugins.findIdx?
            (fun p => p.name = n) = some idx := by
          rw [findIdx?_name_congr hnames1 0]
          exact hidx
        have herase : (updatePlugin m p.objId p.destroy.plugin).plugins.eraseP
            (fun p => decide (p.name = n)) =
            (updatePlugin m p.objId p.destroy.plugin).plugins.eraseIdx idx :=
          eraseP_eq_eraseIdx hidx1
        have hsub : List.Sublist
            ((updatePlugin m p.objId p.destroy.plugin).plugins.eraseIdx idx)
            (updatePlugin m p.objId p.destroy.plugin).plugins :=
          List.eraseIdx_sublist _ idx
        refine ⟨?_, ?_, ?_, ?_⟩
        · show mapDelete (updatePlugin m p.objId p.destroy.plugin).pluginsMap
            n = _
          rw [hm1.1, mapDelete_map_pair, herase]
        · exact List.Nodup.sublist (List.Sublist.map LowCodePlugin.name hsub)
            hm1.2.1
        · exact List.Nodup.sublist (List.Sublist.map LowCodePlugin.objId hsub)
            hm1.2.2.1
        · intro q hq
          exact hm1.2.2.2 q (hsub.subset hq)
      · simp only [LowCodePluginManager.delete, hidx, hp, hok, if_false]
        exact hm1

theorem setDisabled_inv {m : LowCodePluginManager} {n : String} {flag : Bool}
    (hm : Inv m) : Inv (m.setDisabled n flag) := by
  cases hg : mapGet m.pluginsMap n with
  | none => simp only [LowCodePluginManager.setDisabled, hg]; exact hm
  | some p =>
    have hpmem : p ∈ m.plugins := by
      rw [hm.1] at hg
      exact (mapGet_map_pair hg).1
    simp only [LowCodePluginManager.setDisabled, hg]
    exact (updatePlugin_inv_mem hm hpmem
      (show (p.setDisabled flag).name = p.name from rfl)
      (show (p.setDisabled flag).objId = p.objId from rfl)).1

theorem initLoop_inv :
    ∀ (seq : List String) (m : LowCodePluginManager), Inv m →
      Inv (initLoop seq m).1 ∧
      namesIds (initLoop seq m).1 = namesIds m ∧
      (initLoop seq m).1.pluginPreference = m.pluginPreference ∧
      (initLoop seq m).1.nextObjId = m.nextObjId := by
  intro seq
  induction seq with
  | nil => intro m hm; exact ⟨hm, rfl, rfl, rfl⟩
  | cons n rest ih =>
    intro m hm
    cases hg : mapGet m.pluginsMap n with
    | none =>
      simp only [initLoop, hg]
      exact ih m hm
    | some p =>
      have hpmem : p ∈ m.plugins := by
        rw [hm.1] at hg
        exact (mapGet_map_pair hg).1
      obtain ⟨hm1, hsig1, hpref1, hnid1⟩ :=
        updatePlugin_inv_mem hm hpmem (init_plugin_name p) (init_plugin_objId p)
      obtain ⟨hi, hs, hp, hn⟩ := ih _ hm1
      simp only [initLoop, hg]
      exact ⟨hi, hs.trans hsig1, hp.trans hpref1, hn.trans hnid1⟩

theorem init_inv {m : LowCodePluginManager} {pref : Option PluginPreference}
    (hm : Inv m) : Inv (m.init pref).state := by
  rw [LowCodePluginManager.init]
  have hm0 : Inv { m with pluginPreference := pref } := hm
  by_cases hmiss :
      (sequencify (unitsOf { m with pluginPreference := pref })
        (pluginNamesOf { m with pluginPreference := pref })).missingTasks = []
  · simp only [hmiss, if_true]
    exact (initLoop_inv _ _ hm0).1
  · simp only [hmiss, if_false]
    exact hm0

theorem destroyLoop_inv :
    ∀ (todo : List LowCodePlugin) (m : LowCodePluginManager), Inv m →
      (∀ p ∈ todo, ∀ x ∈ namesIds m, x.2 = p.objId → x.1 = p.name) →
      Inv (destroyLoop todo m).2.1 ∧
      namesIds (destroyLoop todo m).2.1 = namesIds m := by
  intro todo
  induction todo with
  | nil => intro m hm _; exact ⟨hm, rfl⟩
  | cons p rest ih =>
    intro m hm hcond
    have hupd := updatePlugin_inv hm (destroy_plugin_objId p) ?hc
    case hc =>
      intro q hq hqi
      have hx : (q.name, q.objId) ∈ namesIds m := List.mem_map_of_mem _ hq
      rw [destroy_plugin_name]
      exact hcond p (List.mem_cons_self _ _) _ hx hqi
    obtain ⟨hm1, hsig1, _, _⟩ := hupd
    by_cases hok : p.destroy.ok
    · simp only [destroyLoop, hok, if_true]
      have hcond1 : ∀ q ∈ rest, ∀ x ∈
          namesIds (updatePlugin m p.objId p.destroy.plugin),
          x.2 = q.objId → x.1 = q.name := by
        intro q hq x hx hxe
        rw [hsig1] at hx
        exact hcond q (List.mem_cons_of_mem _ hq) x hx hxe
      obtain ⟨hi, hs⟩ := ih _ hm1 hcond1
      exact ⟨hi, hs.trans hsig1⟩
    · simp only [destroyLoop, hok, if_false]
      exact ⟨hm1, hsig1⟩

theorem destroy_inv {m : LowCodePluginManager} (hm : Inv m) :
    Inv m.destroy.2.1 ∧ namesIds m.destroy.2.1 = namesIds m := by
  refine destroyLoop_inv m.plugins m hm ?_
  intro p hp x hx hxe
  obtain ⟨q, hq, hqe⟩ := List.mem_map.mp hx
  have : q.objId = p.objId := by rw [← hxe, ← hqe]
  have hqp : q = p := eq_of_objId_nodup hm.2.2.1 hq hp this
  rw [← hqe, hqp]

theorem dispose_inv {m : LowCodePluginManager} (hm : Inv m) :
    Inv m.dispose.2.1 := by
  obtain ⟨hd, _⟩ := destroy_inv hm
  by_cases hok : m.destroy.1
  · simp only [LowCodePluginManager.dispose, hok, if_true]
    exact ⟨rfl, List.nodup_nil, List.nodup_nil, by intro p hp; simp at hp⟩
  · simp only [LowCodePluginManager.dispose, hok, if_false]
    exact hd

theorem registerTail_error_not_config_dup {env : Env}
    {m : LowCodePluginManager} {creator : PluginCreator}
    {ro : Option ILowCodeRegisterOptions} {x : String} {evs : List PEvent} :
    (registerTail env m creator ro x evs).error ≠ some .configuration ∧
    (registerTail env m creator ro x evs).error ≠ some .duplicate := by
  by_cases hv : versionGateFails env creator.meta
  · rw [registerTail_version_fail hv]
    exact ⟨by simp, by simp⟩
  · rw [Bool.not_eq_true] at hv
    cases ha : roAutoInit ro with
    | false =>
      rw [registerTail_plain hv ha]
      exact ⟨by simp, by simp⟩
    | true =>
      rw [registerTail_autoInit hv ha]
      by_cases hok : (LowCodePlugin.init
          { name := x, config := creator.create, meta := creator.meta,
            objId := m.nextObjId }).ok
      · rw [if_pos hok]
        exact ⟨by simp, by simp⟩
      · rw [if_neg hok]
        exact ⟨by simp, by simp⟩

theorem initLoop_pref :
    ∀ (seq : List String) (m : LowCodePluginManager),
      (initLoop seq m).1.pluginPreference = m.pluginPreference := by
  intro seq
  induction seq with
  | nil => intro m; rfl
  | cons n rest ih =>
    intro m
    cases hg : mapGet m.pluginsMap n with
    | none => simp only [initLoop, hg]; exact ih m
    | some p => simp only [initLoop, hg]; exact ih _

/-! ## Claim theorems -/

/-- C1, counterexample to the claim as stated: from the one-plugin registry
`mX` (name `"x"`), a second `register` for `"x"` with `override := true` whose
metadata declares the unsatisfiable range `"^2.0.0"` throws
`IncompatibleVersionError`, yet afterwards the previously registered unit has
been destroyed and removed from `pluginsMap` — the registry is not the same
as before the call. -/
theorem C1_cex_override_version_fail_mutates :
    (mX.register env0 cXv2 roOv).error = some .incompatibleVersion ∧
    mX.has "x" = true ∧
    (mX.register env0 cXv2 roOv).state.has "x" = false ∧
    (mX.register env0 cXv2 roOv).state.plugins.map LowCodePlugin.destroyed =
      [true] := by
  decide

/-- C1 (amended): a `register` call that throws `ConfigurationError` or
`DuplicatePluginError` always leaves the registry exactly as before and emits
no lifecycle events, and so does a call that throws
`IncompatibleVersionError` — except when it entered the override branch
(`override = true` for an already-registered name), where the original unit
has already been destroyed and removed from `pluginsMap` before the version
gate runs. -/
theorem C1_register_error_no_mutation :
    ∀ (env : Env) (m : LowCodePluginManager) (creator : PluginCreator)
      (ro : Option ILowCodeRegisterOptions) (e : RegisterError),
      (m.register env creator ro).error = some e →
      (e = .configuration ∨ e = .duplicate ∨
        (e = .incompatibleVersion ∧
          entersOverrideBranch m (.register creator ro) = false)) →
      (m.register env creator ro).state = m ∧
      (m.register env creator ro).events = [] := by
  intro env m creator ro e herr hcase
  cases hd : derivedName creator with
  | none => rw [register_config_case hd]; exact ⟨rfl, rfl⟩
  | some x =>
    cases hhas : mapHas m.pluginsMap x with
    | true =>
      cases hov : roOverride ro with
      | false => rw [register_duplicate_case hd hhas hov]; exact ⟨rfl, rfl⟩
      | true =>
        exfalso
        obtain ⟨orig, horig⟩ : ∃ orig, mapGet m.pluginsMap x = some orig := by
          cases hg : mapGet m.pluginsMap x with
          | none => rw [mapHas, hg] at hhas; simp at hhas
          | some orig => exact ⟨orig, rfl⟩
        rw [register_override_case hd horig hov] at herr
        rcases hcase with h | h | ⟨h, hno⟩
        · subst h
          exact registerTail_error_not_config_dup.1 herr
        · subst h
          exact registerTail_error_not_config_dup.2 herr
        · simp [entersOverrideBranch, hd, hov, hhas] at hno
    | false =>
      rw [register_fresh_case hd hhas] at herr ⊢
      cases hv : versionGateFails env creator.meta with
      | true =>
        rw [registerTail_version_fail hv]
        exact ⟨rfl, rfl⟩
      | false =>
        cases ha : roAutoInit ro with
        | false =>
          rw [registerTail_plain hv ha] at herr
          exact absurd herr (by simp)
        | true =>
          rw [registerTail_autoInit hv ha] at herr
          by_cases hok : (LowCodePlugin.init
              { name := x, config := creator.create, meta := creator.meta,
                objId := m.nextObjId }).ok
          · rw [if_pos hok] at herr
            exact absurd herr (by simp)
          · rw [if_neg hok] at herr
            obtain rfl : RegisterError.hookError = e := by
              simpa using herr
            rcases hcase with h | h | ⟨h, _⟩ <;> exact RegisterError.noConfusion h

/-- C1 witness: the amended theorem applied to a duplicate registration of
`"x"` on `mX`. -/
theorem C1_register_error_no_mutation_witness :
    (mX.register env0 (mkCreator "x" cfgOk) none).state = mX ∧
    (mX.register env0 (mkCreator "x" cfgOk) none).events = [] :=
  C1_register_error_no_mutation env0 mX (mkCreator "x" cfgOk) none .duplicate
    (by decide) (Or.inr (Or.inl rfl))

/-- C2, counterexample to the claim as stated: starting from the empty
manager, register `"x"`, then register `"x"` again with `override := true`
(both registrations succeed).  Afterwards `pluginsMap.size = 1` while
`plugins.length = 2` — the destroyed old unit is never removed from the
`plugins` array. -/
theorem C2_cex_override_breaks_size_invariant :
    ¬ ((applyOp env0 (applyOp env0 emptyManager
          (Op.register (mkCreator "x" cfgOk) none))
        (Op.register (mkCreator "x" cfgOk) roOv)).size =
      (applyOp env0 (applyOp env0 emptyManager
          (Op.register (mkCreator "x" cfgOk) none))
        (Op.register (mkCreator "x" cfgOk) roOv)).plugins.length) := by
  decide

/-- C2 (amended): the invariant `pluginsMap.size == plugins.length`, together
with the property that every name in `pluginsMap` maps to the corresponding
object in `plugins`, holds for the empty manager and is preserved by every
public operation (`register`, `delete`, `init`, `setDisabled`, `dispose`)
except a `register` call that enters the override branch (`override = true`
with the derived name already registered): such a call removes the old unit
from `pluginsMap` but leaves it in `plugins`. -/
theorem C2_registry_invariant :
    Inv emptyManager ∧
    ∀ (env : Env) (m : LowCodePluginManager) (op : Op),
      Inv m → entersOverrideBranch m op = false →
      Inv (applyOp env m op) ∧
      mapSize (applyOp env m op).pluginsMap =
        (applyOp env m op).plugins.length ∧
      ∀ x p, mapGet (applyOp env m op).pluginsMap x = some p →
        p ∈ (applyOp env m op).plugins ∧ p.name = x := by
  constructor
  · exact ⟨rfl, List.nodup_nil, List.nodup_nil,
      fun p hp => absurd hp (List.not_mem_nil p)⟩
  · intro env m op hm hno
    have hinv : Inv (applyOp env m op) := by
      cases op with
      | register creator ro => exact register_inv hm hno
      | delete n => exact delete_inv hm
      | init pref => exact init_inv hm
      | setDisabled n flag => exact setDisabled_inv hm
      | dispose => exact dispose_inv hm
    refine ⟨hinv, ?_, ?_⟩
    · rw [hinv.1, mapSize, List.length_map]
    · intro x p hget
      rw [hinv.1] at hget
      exact ⟨(mapGet_map_pair hget).1, (mapGet_map_pair hget).2⟩

/-- C2 witness: the amended theorem applied to registering `"x"` on the empty
manager. -/
theorem C2_registry_invariant_witness :
    Inv (applyOp env0 emptyManager
      (Op.register (mkCreator "x" cfgOk) none)) :=
  (C2_registry_invariant.2 env0 emptyManager
    (Op.register (mkCreator "x" cfgOk) none)
    (by decide) (by decide)).1

/-- C4: whenever the Sequencer reports a non-empty `missingTasks` for the
currently registered units, `init` throws (the returned promise rejects, here
`ok = false`) before invoking any unit's `init` hook: no lifecycle event is
emitted and the registry is untouched apart from the preference snapshot
taken at entry. -/
theorem C4_missing_dependency_aborts :
    ∀ (m : LowCodePluginManager) (pref : Option PluginPreference),
      (sequencify (unitsOf m) (pluginNamesOf m)).missingTasks ≠ [] →
      (m.init pref).ok = false ∧ (m.init pref).events = [] ∧
      (m.init pref).state = { m with pluginPreference := pref } := by
  intro m pref h
  have h' : ¬ (sequencify (unitsOf { m with pluginPreference := pref })
      (pluginNamesOf { m with pluginPreference := pref })).missingTasks =
      [] := h
  have hres : m.init pref = ⟨false, { m with pluginPreference := pref }, []⟩ := by
    simp only [LowCodePluginManager.init, h', if_false]
  rw [hres]
  exact ⟨rfl, rfl, rfl⟩

/-- C4 witness: the registry `mMissing` registers `"m"` with the unregistered
dependency `"ghost"`. -/
theorem C4_missing_dependency_aborts_witness :
    (mMissing.init none).ok = false ∧ (mMissing.init none).events = [] ∧
    (mMissing.init none).state =
      { mMissing with pluginPreference := none } :=
  C4_missing_dependency_aborts mMissing none (by decide)

/-- C7: a second `register` call deriving an already-registered name without
`override = true` throws `DuplicatePluginError`, the registry is exactly
unchanged, and `get` still returns the original unit. -/
theorem C7_duplicate_register_rejected :
    ∀ (env : Env) (m : LowCodePluginManager) (creator : PluginCreator)
      (ro : Option ILowCodeRegisterOptions) (x : String),
      derivedName creator = some x →
      mapHas m.pluginsMap x = true →
      roOverride ro = false →
      (m.register env creator ro).error = some .duplicate ∧
      (m.register env creator ro).state = m ∧
      (m.register env creator ro).state.get x = m.get x := by
  intro env m creator ro x hd hhas hov
  rw [register_duplicate_case hd hhas hov]
  exact ⟨rfl, rfl, rfl⟩

/-- C7 witness: registering `"x"` a second time on `mX`. -/
theorem C7_duplicate_register_rejected_witness :
    (mX.register env0 (mkCreator "x" cfgOk) none).error = some .duplicate ∧
    (mX.register env0 (mkCreator "x" cfgOk) none).state = mX ∧
    (mX.register env0 (mkCreator "x" cfgOk) none).state.get "x" = mX.get "x" :=
  C7_duplicate_register_rejected env0 mX (mkCreator "x" cfgOk) none "x"
    (by decide) (by decide) (by decide)

/-- C10: calling `init()` with no preference map stores the absent value as
the new preference snapshot (replacing whatever was stored, including the
initial empty map), so `getPluginPreference` afterwards returns `null` for
every name. -/
theorem C10_init_none_clears_preferences :
    ∀ (m : LowCodePluginManager) (n : String),
      (m.init none).state.pluginPreference = none ∧
      (m.init none).state.getPluginPreference n = PrefLookup.null := by
  intro m n
  have hpref : (m.init none).state.pluginPreference = none := by
    by_cases h : (sequencify
        (unitsOf { m with pluginPreference := (none : Option PluginPreference) })
        (pluginNamesOf
          { m with pluginPreference := (none : Option PluginPreference) })).missingTasks = []
    · simp only [LowCodePluginManager.init, h, if_true]
      exact initLoop_pref _ _
    · simp only [LowCodePluginManager.init, h, if_false]
  refine ⟨hpref, ?_⟩
  simp only [LowCodePluginManager.getPluginPreference, hpref]

theorem destroy_call_clean {p : LowCodePlugin} (hd : p.destroyed = false)
    (hb : p.config.destroyBehavior = .ok) :
    p.destroy = ⟨true, { p with destroyed := true },
      [.destroyHook p.name]⟩ := by
  simp [LowCodePlugin.destroy, hd, hb]

theorem destroyLoop_ok_events :
    ∀ (todo : List LowCodePlugin) (m : LowCodePluginManager),
      (∀ p ∈ todo, p.destroyed = false ∧
        p.config.destroyBehavior = .ok) →
      (destroyLoop todo m).1 = true ∧
      (destroyLoop todo m).2.2 =
        todo.map fun p => PEvent.destroyHook p.name := by
  intro todo
  induction todo with
  | nil => intro m _; exact ⟨rfl, rfl⟩
  | cons p rest ih =>
    intro m hcond
    obtain ⟨hd, hb⟩ := hcond p (List.mem_cons_self _ _)
    have hcall := destroy_call_clean hd hb
    have hok : p.destroy.ok = true := by rw [hcall]
    simp only [destroyLoop, hok, if_true]
    obtain ⟨h1, h2⟩ := ih _ (fun q hq => hcond q (List.mem_cons_of_mem _ hq))
    refine ⟨h1, ?_⟩
    rw [h2, hcall, List.map_cons]
    rfl

/-- C5, counterexample to the claim as stated: in `mBadDestroy` the first
unit's destroy hook throws.  `dispose` then rejects, the second unit's
destroy hook is never invoked, and afterwards `size = 2` and `getAll` is not
empty — one throwing destroy hook does prevent the teardown of the remaining
units (`destroy`'s loop has no try/catch, and `dispose` never reaches its
clearing statements). -/
theorem C5_cex_destroy_throw_blocks_teardown :
    mBadDestroy.dispose.1 = false ∧
    mBadDestroy.dispose.2.2 = [PEvent.destroyHook "a"] ∧
    (PEvent.destroyHook "b") ∉ mBadDestroy.dispose.2.2 ∧
    mBadDestroy.dispose.2.1.size = 2 ∧
    mBadDestroy.dispose.2.1.getAll ≠ [] := by
  decide

/-- C5 (amended): when no registered unit's destroy hook throws (here: every
unit is not yet destroyed and has a succeeding destroy hook), `dispose`
resolves, every unit's destroy hook is observed to run in registration order,
and afterwards `size = 0` and `getAll` returns the empty sequence.  A
throwing destroy hook instead aborts the teardown of the remaining units (see
the counterexample). -/
theorem C5_dispose_clean_teardown :
    ∀ (m : LowCodePluginManager),
      (∀ p ∈ m.plugins, p.destroyed = false ∧
        p.config.destroyBehavior = .ok) →
      m.dispose.1 = true ∧
      m.dispose.2.1.size = 0 ∧
      m.dispose.2.1.getAll = [] ∧
      m.dispose.2.2 = m.plugins.map fun p => PEvent.destroyHook p.name := by
  intro m hcond
  obtain ⟨hok, hevs⟩ := destroyLoop_ok_events m.plugins m hcond
  have hdok : m.destroy.1 = true := hok
  have hres : m.dispose = (true,
      { m.destroy.2.1 with plugins := [], pluginsMap := [] },
      m.destroy.2.2) := by
    unfold LowCodePluginManager.dispose
    rw [if_pos hdok]
  rw [hres]
  exact ⟨rfl, rfl, rfl, hevs⟩

/-- C5 witness: the amended theorem applied to the three-plugin registry
`mThree` (all destroy hooks present and succeeding). -/
theorem C5_dispose_clean_teardown_witness :
    mThree.dispose.1 = true ∧
    mThree.dispose.2.1.size = 0 ∧
    mThree.dispose.2.1.getAll = [] ∧
    mThree.dispose.2.2 =
      mThree.plugins.map fun p => PEvent.destroyHook p.name :=
  C5_dispose_clean_teardown mThree (by decide)

/-- C9: on the `toProxy` surface, a registered non-disabled plugin name
yields that unit's capability proxy; after `setDisabled(x, true)` the lookup
for a registered `x` yields `undefined` while `has` and `get` still report
the unit (with only its `disabled` flag changed); and a property that is not
a registered plugin name falls through to the manager's own API. -/
theorem C9_proxy_surface :
    ∀ (m : LowCodePluginManager) (x : String),
      (∀ p, mapGet m.pluginsMap x = some p →
        (p.disabled = false →
          m.proxyGet x = ProxyResult.pluginProxy p.objId) ∧
        (m.setDisabled x true).proxyGet x = ProxyResult.absent ∧
        (m.setDisabled x true).has x = true ∧
        (m.setDisabled x true).get x = some (p.setDisabled true)) ∧
      (mapHas m.pluginsMap x = false →
        m.proxyGet x = ProxyResult.managerApi) := by
  intro m x
  constructor
  · intro p hget
    have hhas : mapHas m.pluginsMap x = true := by rw [mapHas, hget]; rfl
    have hsd : m.setDisabled x true =
        updatePlugin m p.objId (p.setDisabled true) := by
      simp only [LowCodePluginManager.setDisabled, hget]
    have hget2 : mapGet
        (updatePlugin m p.objId (p.setDisabled true)).pluginsMap x =
        some (p.setDisabled true) := by
      have h := mapGet_map_update hget p.objId (p.setDisabled true)
      simpa using h
    have hhas2 : mapHas
        (updatePlugin m p.objId (p.setDisabled true)).pluginsMap x = true := by
      rw [mapHas, hget2]; rfl
    refine ⟨?_, ?_, ?_, ?_⟩
    · intro hdis
      simp [LowCodePluginManager.proxyGet, hhas, hget, hdis]
    · rw [hsd]
      simp only [LowCodePluginManager.proxyGet, hhas2, if_true, hget2]
      simp [LowCodePlugin.setDisabled]
    · rw [hsd]
      exact hhas2
    · rw [hsd]
      exact hget2
  · intro hhas
    simp [LowCodePluginManager.proxyGet, hhas]

/-- C9 witness: the theorem applied to the one-plugin registry `mX` at the
registered name `"x"` and the unregistered name `"zzz"`. -/
theorem C9_proxy_surface_witness :
    mX.proxyGet "x" = ProxyResult.pluginProxy 0 ∧
    (mX.setDisabled "x" true).proxyGet "x" = ProxyResult.absent ∧
    (mX.setDisabled "x" true).has "x" = true ∧
    mX.proxyGet "zzz" = ProxyResult.managerApi := by
  have h := (C9_proxy_surface mX "x").1
    { name := "x", config := cfgOk, meta := {}, objId := 0 } (by decide)
  exact ⟨h.1 (by decide), h.2.1, h.2.2.1,
    (C9_proxy_surface mX "zzz").2 (by decide)⟩

/-- C8: a `register` call for an already-registered name `x` with
`override := true` that passes the version gate (and without `autoInit`)
resolves; the original unit's destroy hook is invoked (the only event of the
call, emitted before the new unit is installed), and afterwards `get x`
returns the freshly created unit — not the original one. -/
theorem C8_override_replaces :
    ∀ (env : Env) (m : LowCodePluginManager) (creator : PluginCreator)
      (x : String) (orig : LowCodePlugin),
      derivedName creator = some x →
      mapGet m.pluginsMap x = some orig →
      orig.destroyed = false →
      orig.config.destroyBehavior = .ok →
      versionGateFails env creator.meta = false →
      (m.register env creator roOv).error = none ∧
      (m.register env creator roOv).events =
        [PEvent.destroyHook orig.name] ∧
      (m.register env creator roOv).state.get x =
        some { name := x, config := creator.create, meta := creator.meta,
               objId := m.nextObjId } ∧
      (orig.objId ≠ m.nextObjId →
        (m.register env creator roOv).state.get x ≠ some orig) := by
  intro env m creator x orig hd hget hdes hbeh hv
  have hov : roOverride roOv = true := rfl
  have hai : roAutoInit roOv = false := rfl
  rw [register_override_case hd hget hov, registerTail_plain hv hai]
  have hcall := destroy_call_clean hdes hbeh
  have hget2 : mapGet (mapSet (mapDelete
      (updatePlugin m orig.objId orig.destroy.plugin).pluginsMap x) x
      { name := x, config := creator.create, meta := creator.meta,
        objId := m.nextObjId }) x =
      some { name := x, config := creator.create, meta := creator.meta,
             objId := m.nextObjId } := mapGet_mapSet_self _ _ _
  refine ⟨rfl, ?_, hget2, ?_⟩
  · rw [hcall]
  · intro hne hEq
    have h2 : (some
        { name := x, config := creator.create, meta := creator.meta,
          objId := m.nextObjId } : Option LowCodePlugin) = some orig :=
      hget2.symm.trans hEq
    have h3 := congrArg (fun o => (Option.map LowCodePlugin.objId o)) h2
    simp only [Option.map_some] at h3
    exact hne (Option.some.inj h3).symm

/-- C8 witness: overriding `"x"` on `mX` with a fresh factory; the old
unit's destroy hook runs and `get "x"` returns the new unit (identity 1),
not the original (identity 0). -/
theorem C8_override_replaces_witness :
    (mX.register env0 (mkCreator "x" cfgOk) roOv).error = none ∧
    (mX.register env0 (mkCreator "x" cfgOk) roOv).events =
      [PEvent.destroyHook "x"] ∧
    (mX.register env0 (mkCreator "x" cfgOk) roOv).state.get "x" =
      some { name := "x", config := cfgOk, meta := {}, objId := 1 } ∧
    (mX.register env0 (mkCreator "x" cfgOk) roOv).state.get "x" ≠
      some { name := "x", config := cfgOk, meta := {}, objId := 0 } := by
  have h := C8_override_replaces env0 mX (mkCreator "x" cfgOk) "x"
    { name := "x", config := cfgOk, meta := {}, objId := 0 }
    (by decide) (by decide) rfl rfl rfl
  exact ⟨h.1, h.2.1, h.2.2.1, h.2.2.2 (by decide)⟩

/-! ## The ordered init pass over dependency-free registries -/

theorem mapGet_append {α : Type} (l1 l2 : List (String × α)) (k : String) :
    mapGet (l1 ++ l2) k =
      match mapGet l1 k with
      | some v => some v
      | none => mapGet l2 k := by
  induction l1 with
  | nil => simp [mapGet]
  | cons hd tl ih =>
    obtain ⟨k', v⟩ := hd
    by_cases h : k' = k <;> simp [mapGet, h, ih]

theorem foldl_mapSet_fresh :
    ∀ (l : List LowCodePlugin) (acc : List (String × LowCodePlugin)),
      (∀ p ∈ l, mapHas acc p.name = false) →
      (l.map LowCodePlugin.name).Nodup →
      l.foldl (fun acc p => mapSet acc p.name p) acc =
        acc ++ l.map pairEntry := by
  intro l
  induction l with
  | nil => intro acc _ _; simp
  | cons p rest ih =>
    intro acc hfresh hnodup
    simp only [List.map_cons, List.nodup_cons] at hnodup
    simp only [List.foldl_cons]
    rw [mapSet_of_has_false p (hfresh p (List.mem_cons_self _ _))]
    rw [ih (acc ++ [(p.name, p)]) ?fresh hnodup.2]
    · simp [pairEntry]
    case fresh =>
      intro q hq
      rw [mapHas, mapGet_append]
      rw [mapGet_eq_none_of_has_false (hfresh q (List.mem_cons_of_mem _ hq))]
      have hqp : q.name ≠ p.name := by
        intro he
        exact hnodup.1 (he ▸ List.mem_map_of_mem LowCodePlugin.name hq)
      have hne : ¬ p.name = q.name := fun h => hqp h.symm
      simp [mapGet, hne]

theorem pluginObjOf_eq {m : LowCodePluginManager}
    (h : (m.plugins.map LowCodePlugin.name).Nodup) :
    pluginObjOf m = m.plugins.map pairEntry := by
  have := foldl_mapSet_fresh m.plugins [] (fun p _ => rfl) h
  simpa [pluginObjOf] using this

theorem unitsOf_eq {m : LowCodePluginManager}
    (h : (m.plugins.map LowCodePlugin.name).Nodup) :
    unitsOf m = m.plugins.map fun p => (p.name, p.deps) := by
  rw [unitsOf, pluginObjOf_eq h, List.map_map]
  rfl

theorem mapGet_units_of_mem :
    ∀ {l : List LowCodePlugin} {n : String}, n ∈ l.map LowCodePlugin.name →
      (∀ p ∈ l, p.deps = []) →
      mapGet (l.map fun p => (p.name, p.deps)) n = some [] := by
  intro l
  induction l with
  | nil => intro n h _; simp at h
  | cons hd tl ih =>
    intro n hmem hdeps
    by_cases hk : hd.name = n
    · simp only [List.map_cons, mapGet, hk, if_true]
      rw [hdeps hd (List.mem_cons_self _ _)]
    · simp only [List.map_cons, mapGet, hk, if_false]
      refine ih ?_ (fun p hp => hdeps p (List.mem_cons_of_mem _ hp))
      simp only [List.map_cons, List.mem_cons] at hmem
      rcases hmem with h | h
      · exact absurd h.symm hk
      · exact h

theorem seqVisit_all_empty_fold :
    ∀ (names : List String) (st : SeqResult)
      (u : List (String × List String)) (f : Nat),
      (∀ n ∈ names, mapGet u n = some []) →
      names.Nodup →
      (∀ n ∈ names, n ∉ st.sequence) →
      names.foldl (seqVisit u (f + 1) []) st =
        ⟨st.sequence ++ names, st.missingTasks⟩ := by
  intro names
  induction names with
  | nil =>
    intro st u f _ _ _
    cases st
    simp
  | cons n rest ih =>
    intro st u f hget hnodup hfresh
    simp only [List.nodup_cons] at hnodup
    simp only [List.foldl_cons]
    have hstep : seqVisit u (f + 1) [] st n =
        ⟨st.sequence ++ [n], st.missingTasks⟩ := by
      rw [seqVisit]
      rw [if_neg (hfresh n (List.mem_cons_self _ _))]
      rw [if_neg (List.not_mem_nil n)]
      rw [hget n (List.mem_cons_self _ _)]
      simp
    rw [hstep,
      ih ⟨st.sequence ++ [n], st.missingTasks⟩ u f
        (fun q hq => hget q (List.mem_cons_of_mem _ hq)) hnodup.2 ?fresh]
    · simp
    case fresh =>
      intro q hq
      simp only [List.mem_append, List.mem_singleton, not_or]
      exact ⟨hfresh q (List.mem_cons_of_mem _ hq),
        fun he => hnodup.1 (he ▸ hq)⟩

theorem sequencify_all_empty {u : List (String × List String)}
    {names : List String} (hget : ∀ n ∈ names, mapGet u n = some [])
    (hnodup : names.Nodup) : sequencify u names = ⟨names, []⟩ := by
  rw [sequencify,
    seqVisit_all_empty_fold names ⟨[], []⟩ u u.length hget hnodup
      (fun n _ => List.not_mem_nil n)]
  simp

theorem mapGet_pair_append_head {done : List LowCodePlugin}
    {p : LowCodePlugin} {rest : List LowCodePlugin}
    (hfresh : p.name ∉ done.map LowCodePlugin.name) :
    mapGet ((done ++ p :: rest).map pairEntry) p.name = some p := by
  induction done with
  | nil => simp [mapGet, pairEntry]
  | cons d tl ih =>
    simp only [List.map_cons, List.mem_cons, not_or] at hfresh
    simp only [List.cons_append, List.map_cons, pairEntry, mapGet]
    rw [if_neg (fun h => hfresh.1 h.symm)]
    exact ih hfresh.2

theorem map_if_objId_eq_self {l : List LowCodePlugin} {i : Nat}
    {p' : LowCodePlugin} (h : ∀ q ∈ l, q.objId ≠ i) :
    l.map (fun q => if q.objId = i then p' else q) = l := by
  have h2 : l.map (fun q => if q.objId = i then p' else q) = l.map id :=
    List.map_congr_left (fun a ha => if_neg (h a ha))
  rw [h2, List.map_id]

theorem map_pair_if_objId_eq_self {l : List LowCodePlugin} {i : Nat}
    {p' : LowCodePlugin} (h : ∀ q ∈ l, q.objId ≠ i) :
    (l.map pairEntry).map
        (fun kv => if kv.2.objId = i then (kv.1, p') else kv) =
      l.map pairEntry := by
  rw [List.map_map]
  exact List.map_congr_left (fun a ha => by simp [pairEntry, h a ha])

theorem updatePlugin_split {done rest : List LowCodePlugin}
    {p p' : LowCodePlugin} {m : LowCodePluginManager}
    (hplugins : m.plugins = done ++ p :: rest)
    (hmap : m.pluginsMap = (done ++ p :: rest).map pairEntry)
    (hids : ((done ++ p :: rest).map LowCodePlugin.objId).Nodup)
    (hname : p'.name = p.name) :
    (updatePlugin m p.objId p').plugins = done ++ p' :: rest ∧
    (updatePlugin m p.objId p').pluginsMap =
      (done ++ p' :: rest).map pairEntry := by
  rw [List.map_append, List.map_cons, List.nodup_append] at hids
  have hdone : ∀ q ∈ done, q.objId ≠ p.objId := by
    intro q hq he
    exact hids.2.2 (List.mem_map_of_mem LowCodePlugin.objId hq)
      (by simp [he])
  have hrest : ∀ q ∈ rest, q.objId ≠ p.objId := by
    intro q hq he
    exact (List.nodup_cons.mp hids.2.1).1
      (he ▸ List.mem_map_of_mem LowCodePlugin.objId hq)
  constructor
  · show m.plugins.map _ = _
    rw [hplugins, List.map_append, List.map_cons, if_pos rfl,
      map_if_objId_eq_self hdone, map_if_objId_eq_self hrest]
  · show m.pluginsMap.map _ = _
    rw [hmap, List.map_append, List.map_append, List.map_cons,
      List.map_cons, map_pair_if_objId_eq_self hdone,
      map_pair_if_objId_eq_self hrest]
    have hhd : (if (pairEntry p).2.objId = p.objId then ((pairEntry p).1, p')
        else pairEntry p) = pairEntry p' := by
      simp [pairEntry, hname]
    rw [hhd, List.map_append, List.map_cons]

theorem afterInit_name (p : LowCodePlugin) : (afterInit p).name = p.name := by
  cases hb : p.config.initBehavior <;> simp [afterInit, hb]

theorem afterInit_objId (p : LowCodePlugin) :
    (afterInit p).objId = p.objId := by
  cases hb : p.config.initBehavior <;> simp [afterInit, hb]

theorem init_call_fresh {p : LowCodePlugin} (h : p.inited = false) :
    p.init.plugin = afterInit p ∧
    p.init.events ++ (if p.init.ok then [] else [PEvent.logError p.name]) =
      initPassEvents p := by
  cases hb : p.config.initBehavior <;>
    simp [LowCodePlugin.init, afterInit, initPassEvents, h, hb]

theorem initLoop_char :
    ∀ (todo done : List LowCodePlugin) (m : LowCodePluginManager),
      m.plugins = done ++ todo →
      m.pluginsMap = (done ++ todo).map pairEntry →
      ((done ++ todo).map LowCodePlugin.name).Nodup →
      ((done ++ todo).map LowCodePlugin.objId).Nodup →
      (∀ p ∈ todo, p.inited = false) →
      (initLoop (todo.map LowCodePlugin.name) m).1.plugins =
        done ++ todo.map afterInit ∧
      (initLoop (todo.map LowCodePlugin.name) m).2 =
        todo.flatMap initPassEvents := by
  intro todo
  induction todo with
  | nil =>
    intro done m hpl _ _ _ _
    refine ⟨?_, rfl⟩
    show m.plugins = _
    rw [hpl]
    simp
  | cons p rest ih =>
    intro done m hpl hmap hnames hids hinited
    have hfreshname : p.name ∉ done.map LowCodePlugin.name := by
      rw [List.map_append] at hnames
      have hdisj := (List.nodup_append.mp hnames).2.2
      intro hmem
      exact hdisj hmem (by simp)
    have hget : mapGet m.pluginsMap p.name = some p := by
      rw [hmap]
      exact mapGet_pair_append_head hfreshname
    obtain ⟨hplug, hevs⟩ := init_call_fresh (hinited p (List.mem_cons_self _ _))
    have hsplit := updatePlugin_split hpl hmap hids (afterInit_name p)
    rw [← hplug] at hsplit
    have hnames' : ((done ++ [afterInit p]) ++ rest).map LowCodePlugin.name =
        (done ++ p :: rest).map LowCodePlugin.name := by
      simp [afterInit_name]
    have hids' : ((done ++ [afterInit p]) ++ rest).map LowCodePlugin.objId =
        (done ++ p :: rest).map LowCodePlugin.objId := by
      simp [afterInit_objId]
    have hrec := ih (done ++ [afterInit p])
      (updatePlugin m p.objId p.init.plugin)
      (by rw [hsplit.1, hplug]; simp)
      (by rw [hsplit.2, hplug]; simp)
      (by rw [hnames']; exact hnames)
      (by rw [hids']; exact hids)
      (fun q hq => hinited q (List.mem_cons_of_mem _ hq))
    simp only [List.map_cons, initLoop, hget]
    constructor
    · rw [hrec.1]
      simp
    · rw [hrec.2, hevs]
      simp

theorem initHookNames_append (a b : List PEvent) :
    initHookNames (a ++ b) = initHookNames a ++ initHookNames b :=
  List.filterMap_append a b _

theorem initHookNames_flatMap :
    ∀ (l : List LowCodePlugin),
      (∀ p ∈ l, p.config.initBehavior ≠ .absent) →
      initHookNames (l.flatMap initPassEvents) =
        l.map LowCodePlugin.name := by
  intro l
  induction l with
  | nil => intro _; rfl
  | cons p rest ih =>
    intro hcond
    rw [List.flatMap_cons, initHookNames_append,
      ih (fun q hq => hcond q (List.mem_cons_of_mem _ hq)), List.map_cons]
    have hp := hcond p (List.mem_cons_self _ _)
    cases hb : p.config.initBehavior with
    | absent => exact absurd hb hp
    | ok => simp [initPassEvents, hb, initHookNames]
    | throws => simp [initPassEvents, hb, initHookNames]

/-- C3: over a registry of dependency-free, not-yet-initialized units whose
init hooks are all present (some possibly throwing), the ordered init pass
invokes every unit's hook in order — a throwing hook does not prevent any
later unit's hook from running — every failure is logged, and `init()` as a
whole resolves. -/
theorem C3_init_failure_isolation :
    ∀ (m : LowCodePluginManager) (pref : Option PluginPreference),
      Inv m →
      (∀ p ∈ m.plugins, p.meta.dependencies = [] ∧ p.inited = false ∧
        p.config.initBehavior ≠ .absent) →
      (m.init pref).ok = true ∧
      initHookNames (m.init pref).events = m.plugins.map LowCodePlugin.name ∧
      (∀ p ∈ m.plugins, p.config.initBehavior = .throws →
        PEvent.logError p.name ∈ (m.init pref).events) := by
  intro m pref hm hcond
  obtain ⟨hpair, hnames, hids, hbound⟩ := hm
  have hunits : unitsOf m = m.plugins.map fun p => (p.name, p.deps) :=
    unitsOf_eq hnames
  have hget : ∀ n ∈ pluginNamesOf m, mapGet (unitsOf m) n = some [] := by
    intro n hn
    rw [hunits]
    exact mapGet_units_of_mem hn (fun p hp => (hcond p hp).1)
  have hseq : sequencify (unitsOf m) (pluginNamesOf m) =
      ⟨pluginNamesOf m, []⟩ := sequencify_all_empty hget hnames
  have hseq0 : sequencify
      (unitsOf { m with pluginPreference := pref })
      (pluginNamesOf { m with pluginPreference := pref }) =
      ⟨pluginNamesOf m, []⟩ := hseq
  have hres : m.init pref = ⟨true,
      (initLoop (pluginNamesOf m) { m with pluginPreference := pref }).1,
      (initLoop (pluginNamesOf m) { m with pluginPreference := pref }).2⟩ := by
    simp [LowCodePluginManager.init, hseq0]
  have hchar := initLoop_char m.plugins []
    { m with pluginPreference := pref }
    (by simp) (by simpa using hpair) (by simpa using hnames)
    (by simpa using hids) (fun p hp => (hcond p hp).2.1)
  have hevents : (m.init pref).events = m.plugins.flatMap initPassEvents := by
    rw [hres]
    exact hchar.2
  refine ⟨by rw [hres], ?_, ?_⟩
  · rw [hevents]
    exact initHookNames_flatMap m.plugins (fun p hp => (hcond p hp).2.2)
  · intro p hp hthrows
    rw [hevents]
    refine List.mem_flatMap_of_mem hp ?_
    simp [initPassEvents, hthrows]

/-- C3 witness: the three-plugin registry `mThree`, whose middle unit's init
hook throws. -/
theorem C3_init_failure_isolation_witness :
    (mThree.init none).ok = true ∧
    initHookNames (mThree.init none).events =
      mThree.plugins.map LowCodePlugin.name ∧
    (∀ p ∈ mThree.plugins, p.config.initBehavior = .throws →
      PEvent.logError p.name ∈ (mThree.init none).events) :=
  C3_init_failure_isolation mThree none (by decide) (by decide)

/-! ## Cycles in the dependency graph -/

theorem seqVisit_missing_mono (u : List (String × List String)) :
    ∀ (fuel : Nat) (visiting : List String) (st : SeqResult) (name : String),
      ∃ t, (seqVisit u fuel visiting st name).missingTasks =
        st.missingTasks ++ t := by
  intro fuel
  induction fuel with
  | zero => intro v st n; exact ⟨[], (List.append_nil _).symm⟩
  | succ f ih =>
    intro v st n
    rw [seqVisit]
    by_cases h1 : n ∈ st.sequence
    · rw [if_pos h1]
      exact ⟨[], (List.append_nil _).symm⟩
    rw [if_neg h1]
    by_cases h2 : n ∈ v
    · rw [if_pos h2]
      exact ⟨[n], rfl⟩
    rw [if_neg h2]
    have hfold : ∀ (l : List String) (st : SeqResult),
        ∃ t, (l.foldl (seqVisit u f (n :: v)) st).missingTasks =
          st.missingTasks ++ t := by
      intro l
      induction l with
      | nil => intro st; exact ⟨[], (List.append_nil _).symm⟩
      | cons d dl ihl =>
        intro st
        simp only [List.foldl_cons]
        obtain ⟨t1, ht1⟩ := ih (n :: v) st d
        obtain ⟨t2, ht2⟩ := ihl (seqVisit u f (n :: v) st d)
        exact ⟨t1 ++ t2, by rw [ht2, ht1, List.append_assoc]⟩
    split
    · exact ⟨[n], rfl⟩
    · rename_i deps heq
      by_cases hall : ∀ d ∈ deps,
          d ∈ (deps.foldl (seqVisit u f (n :: v)) st).sequence
      · rw [if_pos hall]
        exact hfold deps st
      · rw [if_neg hall]
        exact hfold deps st

theorem seqVisit_missing_ne (u : List (String × List String)) {fuel : Nat}
    {v : List String} {st : SeqResult} {name : String}
    (h : st.missingTasks ≠ []) :
    (seqVisit u fuel v st name).missingTasks ≠ [] := by
  obtain ⟨t, ht⟩ := seqVisit_missing_mono u fuel v st name
  rw [ht]
  intro hc
  exact h (List.append_eq_nil.mp hc).1

theorem seqFold_missing_ne (u : List (String × List String)) (fuel : Nat)
    (v : List String) :
    ∀ (l : List String) (st : SeqResult), st.missingTasks ≠ [] →
      (l.foldl (seqVisit u fuel v) st).missingTasks ≠ [] := by
  intro l
  induction l with
  | nil => intro st h; exact h
  | cons d dl ih =>
    intro st h
    simp only [List.foldl_cons]
    exact ih _ (seqVisit_missing_ne u h)

theorem seqVisit_some_missing (u : List (String × List String)) {fuel : Nat}
    {v : List String} {st : SeqResult} {n : String} {deps : List String}
    (h1 : n ∉ st.sequence) (h2 : n ∉ v) (hl : mapGet u n = some deps) :
    (seqVisit u (fuel + 1) v st n).missingTasks =
      (deps.foldl (seqVisit u fuel (n :: v)) st).missingTasks := by
  rw [seqVisit, if_neg h1, if_neg h2]
  split
  · rename_i heq
    rw [hl] at heq
    cases heq
  · rename_i deps' heq
    rw [hl] at heq
    obtain rfl : deps' = deps := (Option.some.inj heq).symm
    split
    · rfl
    · rfl

theorem seqVisit_cycle_P (u : List (String × List String)) (a b : String)
    (da db : List String) (ha : mapGet u a = some da)
    (hb : mapGet u b = some db) (hba : b ∈ da) (hab : a ∈ db) :
    ∀ (fuel : Nat) (visiting : List String) (st : SeqResult) (name : String),
      (st.missingTasks ≠ [] ∨ (a ∉ st.sequence ∧ b ∉ st.sequence)) →
      ((seqVisit u fuel visiting st name).missingTasks ≠ [] ∨
        (a ∉ (seqVisit u fuel visiting st name).sequence ∧
          b ∉ (seqVisit u fuel visiting st name).sequence)) := by
  intro fuel
  induction fuel with
  | zero => intro v st n hP; exact hP
  | succ f ih =>
    intro v st n hP
    rw [seqVisit]
    by_cases h1 : n ∈ st.sequence
    · rw [if_pos h1]
      exact hP
    rw [if_neg h1]
    by_cases h2 : n ∈ v
    · rw [if_pos h2]
      left
      simp
    rw [if_neg h2]
    have hfold : ∀ (l : List String) (st : SeqResult),
        (st.missingTasks ≠ [] ∨ (a ∉ st.sequence ∧ b ∉ st.sequence)) →
        ((l.foldl (seqVisit u f (n :: v)) st).missingTasks ≠ [] ∨
          (a ∉ (l.foldl (seqVisit u f (n :: v)) st).sequence ∧
            b ∉ (l.foldl (seqVisit u f (n :: v)) st).sequence)) := by
      intro l
      induction l with
      | nil => intro st h; exact h
      | cons d dl ihl =>
        intro st h
        simp only [List.foldl_cons]
        exact ihl _ (ih (n :: v) st d h)
    split
    · left
      simp
    · rename_i deps heq
      have hP' := hfold deps st hP
      by_cases hall : ∀ d ∈ deps,
          d ∈ (deps.foldl (seqVisit u f (n :: v)) st).sequence
      · rw [if_pos hall]
        rcases hP' with hmiss | ⟨hna, hnb⟩
        · left
          exact hmiss
        · right
          constructor
          · show a ∉ _ ++ [n]
            simp only [List.mem_append, List.mem_singleton]
            rintro (h | h)
            · exact hna h
            · subst h
              have hdeq : deps = da := by
                rw [ha] at heq
                exact (Option.some.inj heq).symm
              exact hnb (hall b (hdeq ▸ hba))
          · show b ∉ _ ++ [n]
            simp only [List.mem_append, List.mem_singleton]
            rintro (h | h)
            · exact hnb h
            · subst h
              have hdeq : deps = db := by
                rw [hb] at heq
                exact (Option.some.inj heq).symm
              exact hna (hall a (hdeq ▸ hab))
      · rw [if_neg hall]
        exact hP'

theorem seqFold_cycle_P (u : List (String × List String)) (a b : String)
    (da db : List String) (ha : mapGet u a = some da)
    (hb : mapGet u b = some db) (hba : b ∈ da) (hab : a ∈ db)
    (fuel : Nat) (visiting : List String) :
    ∀ (l : List String) (st : SeqResult),
      (st.missingTasks ≠ [] ∨ (a ∉ st.sequence ∧ b ∉ st.sequence)) →
      ((l.foldl (seqVisit u fuel visiting) st).missingTasks ≠ [] ∨
        (a ∉ (l.foldl (seqVisit u fuel visiting) st).sequence ∧
          b ∉ (l.foldl (seqVisit u fuel visiting) st).sequence)) := by
  intro l
  induction l with
  | nil => intro st h; exact h
  | cons d dl ih =>
    intro st h
    simp only [List.foldl_cons]
    exact ih _ (seqVisit_cycle_P u a b da db ha hb hba hab fuel visiting st d h)

theorem seqVisit_cycle_hit (u : List (String × List String)) {a b : String}
    {da db : List String} (ha : mapGet u a = some da)
    (hb : mapGet u b = some db) (hba : b ∈ da) (hab : a ∈ db) (hne : a ≠ b) :
    ∀ (f : Nat) (st : SeqResult), a ∉ st.sequence → b ∉ st.sequence →
      (seqVisit u (f + 3) [] st a).missingTasks ≠ [] := by
  intro f st hna hnb
  rw [seqVisit_some_missing u hna (List.not_mem_nil a) ha]
  obtain ⟨da1, da2, hda⟩ := List.append_of_mem hba
  rw [hda, List.foldl_append, List.foldl_cons]
  have hP1 := seqFold_cycle_P u a b da db ha hb hba hab (f + 2) [a] da1 st
    (Or.inr ⟨hna, hnb⟩)
  rcases hP1 with hm1 | ⟨h1a, h1b⟩
  · exact seqFold_missing_ne u _ _ da2 _ (seqVisit_missing_ne u hm1)
  · refine seqFold_missing_ne u _ _ da2 _ ?_
    have hbnota : b ∉ [a] := by
      simp only [List.mem_singleton]
      exact fun h => hne h.symm
    rw [seqVisit_some_missing u h1b hbnota hb]
    obtain ⟨e1, e2, hdb⟩ := List.append_of_mem hab
    rw [hdb, List.foldl_append, List.foldl_cons]
    have hP3 := seqFold_cycle_P u a b da db ha hb hba hab (f + 1) [b, a] e1 _
      (Or.inr ⟨h1a, h1b⟩)
    rcases hP3 with hm3 | ⟨h3a, _⟩
    · exact seqFold_missing_ne u _ _ e2 _ (seqVisit_missing_ne u hm3)
    · refine seqFold_missing_ne u _ _ e2 _ ?_
      rw [seqVisit, if_neg h3a, if_pos (by simp)]
      simp

theorem two_le_length_of_lookups {u : List (String × List String)}
    {a b : String} {da db : List String} (ha : mapGet u a = some da)
    (hb : mapGet u b = some db) (hne : a ≠ b) : 2 ≤ u.length := by
  induction u with
  | nil => simp [mapGet] at ha
  | cons hd tl ih =>
    obtain ⟨k, v⟩ := hd
    by_cases hka : k = a
    · subst hka
      rw [mapGet, if_neg hne] at hb
      have htl : tl ≠ [] := by
        intro h
        rw [h] at hb
        simp [mapGet] at hb
      have := List.length_pos.mpr htl
      simp only [List.length_cons]
      omega
    · by_cases hkb : k = b
      · subst hkb
        rw [mapGet, if_neg (fun h => hne h.symm)] at ha
        have htl : tl ≠ [] := by
          intro h
          rw [h] at ha
          simp [mapGet] at ha
        have := List.length_pos.mpr htl
        simp only [List.length_cons]
        omega
      · rw [mapGet, if_neg hka] at ha
        rw [mapGet, if_neg hkb] at hb
        have := ih ha hb
        simp only [List.length_cons]
        omega

theorem sequencify_cycle_missing {u : List (String × List String)}
    {names : List String} {a b : String} {da db : List String}
    (ha : mapGet u a = some da) (hb : mapGet u b = some db)
    (hba : b ∈ da) (hab : a ∈ db) (hne : a ≠ b) (hmem : a ∈ names) :
    (sequencify u names).missingTasks ≠ [] := by
  have hlen := two_le_length_of_lookups ha hb hne
  obtain ⟨k, hk⟩ : ∃ k, u.length = k + 2 := ⟨u.length - 2, by omega⟩
  rw [sequencify, hk]
  obtain ⟨n1, n2, hnames⟩ := List.append_of_mem hmem
  rw [hnames, List.foldl_append, List.foldl_cons]
  have hP0 := seqFold_cycle_P u a b da db ha hb hba hab (k + 2 + 1) [] n1
    ⟨[], []⟩ (Or.inr ⟨List.not_mem_nil a, List.not_mem_nil b⟩)
  rcases hP0 with hm0 | ⟨h0a, h0b⟩
  · exact seqFold_missing_ne u _ _ n2 _ (seqVisit_missing_ne u hm0)
  · refine seqFold_missing_ne u _ _ n2 _ ?_
    exact seqVisit_cycle_hit u ha hb hba hab hne k _ h0a h0b

theorem mapGet_deps_of_mem :
    ∀ {l : List LowCodePlugin},
      (l.map LowCodePlugin.name).Nodup →
      ∀ {p : LowCodePlugin}, p ∈ l →
      mapGet (l.map fun p => (p.name, p.deps)) p.name = some p.deps := by
  intro l
  induction l with
  | nil => intro _ p hp; simp at hp
  | cons q tl ih =>
    intro hnodup p hp
    simp only [List.map_cons, List.nodup_cons] at hnodup
    rcases List.mem_cons.mp hp with h | h
    · subst h
      simp [mapGet]
    · have hqp : ¬ q.name = p.name := by
        intro he
        exact hnodup.1 (he ▸ List.mem_map_of_mem LowCodePlugin.name h)
      simp only [List.map_cons, mapGet, hqp, if_false]
      exact ih hnodup.2 h

theorem init_missing_aborts {m : LowCodePluginManager}
    {pref : Option PluginPreference}
    (h : (sequencify (unitsOf m) (pluginNamesOf m)).missingTasks ≠ []) :
    m.init pref = ⟨false, { m with pluginPreference := pref }, []⟩ := by
  have h' : ¬ (sequencify (unitsOf { m with pluginPreference := pref })
      (pluginNamesOf { m with pluginPreference := pref })).missingTasks =
      [] := h
  simp only [LowCodePluginManager.init, h', if_false]

/-- C6: whenever the registry contains units A and B with distinct names
where A declares a dependency on B and B declares a dependency on A, the
cyclic members are reported as missing by the Sequencer, so `init()` rejects
with the missing/cyclic-dependency failure before any unit's init hook is
invoked — no lifecycle event is emitted. -/
theorem C6_cycle_rejected :
    ∀ (m : LowCodePluginManager) (pref : Option PluginPreference)
      (pa pb : LowCodePlugin),
      Inv m → pa ∈ m.plugins → pb ∈ m.plugins →
      pa.name ≠ pb.name →
      pb.name ∈ pa.meta.dependencies →
      pa.name ∈ pb.meta.dependencies →
      (m.init pref).ok = false ∧ (m.init pref).events = [] := by
  intro m pref pa pb hm hpa hpb hne hdab hdba
  obtain ⟨hpair, hnames, hids, _⟩ := hm
  have hunits := unitsOf_eq hnames
  have hla : mapGet (unitsOf m) pa.name = some pa.deps := by
    rw [hunits]
    exact mapGet_deps_of_mem hnames hpa
  have hlb : mapGet (unitsOf m) pb.name = some pb.deps := by
    rw [hunits]
    exact mapGet_deps_of_mem hnames hpb
  have hmem : pa.name ∈ pluginNamesOf m :=
    List.mem_map_of_mem LowCodePlugin.name hpa
  have hmiss : (sequencify (unitsOf m) (pluginNamesOf m)).missingTasks ≠ [] :=
    sequencify_cycle_missing hla hlb hdab hdba hne hmem
  rw [init_missing_aborts hmiss]
  exact ⟨rfl, rfl⟩

/-- C6 witness: the two-plugin cyclic registry `mCycle` (`a` depends on `b`,
`b` depends on `a`). -/
theorem C6_cycle_rejected_witness :
    (mCycle.init none).ok = false ∧ (mCycle.init none).events = [] :=
  C6_cycle_rejected mCycle none
    { name := "a", config := cfgOk, meta := { dependencies := ["b"] },
      objId := 0 }
    { name := "b", config := cfgOk, meta := { dependencies := ["a"] },
      objId := 1 }
    (by decide) (by decide) (by decide) (by decide) (by decide) (by decide)

end Lowcode
